import Mathlib

set_option maxHeartbeats 1000000
set_option linter.unusedVariables false

/- Shallow embedding of `maniskill2_learn/networks/backbones/unets.py`:
   the `ConditionalUnet1D` backbone, its `ConditionalResidualBlock1D` blocks and the
   `Downsample1d` / `Upsample1d` / `Conv1dBlock` layers defined at the bottom of that
   file (which shadow the identically named imports from the helpers module).

   Two complementary semantics are used:
   * a shape semantics over `Shape3`/`Shape2` (tensor shapes, with `Except UErr` for
     the runtime errors PyTorch raises on shape mismatches), and
   * a value semantics over rational tensors for the residual-block / FiLM claims,
     parameterised by the learned sub-modules (opaque functions) and by the scalar
     activation, since Mish/GroupNorm are transcendental. -/

/-- Runtime errors surfaced by the modelled tensor operations. -/
inductive UErr where
  | shapeMismatch
  | convTooSmall
  | groupMismatch
  | expandMismatch
  | popEmpty
  | indexOut
  | assertFailed
  | typeBad
  | attrMissing (name : String)
  | nameMissing (name : String)
deriving DecidableEq, Repr

instance {ε α : Type} [DecidableEq ε] [DecidableEq α] : DecidableEq (Except ε α) := fun x y =>
  match x, y with
  | .ok a, .ok b =>
    if h : a = b then .isTrue (by rw [h]) else .isFalse (fun hc => by cases hc; exact h rfl)
  | .error a, .error b =>
    if h : a = b then .isTrue (by rw [h]) else .isFalse (fun hc => by cases hc; exact h rfl)
  | .ok _, .error _ => .isFalse (fun hc => by cases hc)
  | .error _, .ok _ => .isFalse (fun hc => by cases hc)

/-- Shape of a rank-3 tensor `(batch, channels, length)`. -/
structure Shape3 where
  b : Nat
  c : Nat
  l : Nat
deriving DecidableEq, Repr

/-- Shape of a rank-2 tensor `(batch, features)`. -/
structure Shape2 where
  b : Nat
  d : Nat
deriving DecidableEq, Repr

/-- Output shape of `nn.Conv1d(cin, cout, k, stride=s, padding=p)` on a
`(B, cin, L)` input: `(B, cout, (L + 2p - k)/s + 1)`, erroring when the padded input
is shorter than the kernel (PyTorch "calculated output size too small"). -/
def conv1dShape (cin cout k s p : Nat) (x : Shape3) : Except UErr Shape3 :=
  if x.c ≠ cin then .error .shapeMismatch
  else if x.l + 2 * p < k then .error .convTooSmall
  else .ok ⟨x.b, cout, (x.l + 2 * p - k) / s + 1⟩

/-- Output shape of `nn.ConvTranspose1d(cin, cout, k, stride=s, padding=p)`:
`(B, cout, (L-1)s + k - 2p)`. -/
def convTranspose1dShape (cin cout k s p : Nat) (x : Shape3) : Except UErr Shape3 :=
  if x.c ≠ cin then .error .shapeMismatch
  else if x.l = 0 then .error .convTooSmall
  else .ok ⟨x.b, cout, (x.l - 1) * s + k - 2 * p⟩

/-- `Downsample1d(dim)` from unets.py lines 331-337: `nn.Conv1d(dim, dim, 3, 2, 1)`. -/
def downsample1dShape (dim : Nat) (x : Shape3) : Except UErr Shape3 :=
  conv1dShape dim dim 3 2 1 x

/-- `Upsample1d(dim)` from unets.py lines 339-345: `nn.ConvTranspose1d(dim, dim, 4, 2, 1)`. -/
def upsample1dShape (dim : Nat) (x : Shape3) : Except UErr Shape3 :=
  convTranspose1dShape dim dim 4 2 1 x

/-- `nn.GroupNorm(g, c)`: shape preserving; construction requires `g` to divide `c`,
application requires the channel count to be `c`. -/
def groupNormShape (g c : Nat) (x : Shape3) : Except UErr Shape3 :=
  if g = 0 then .error .groupMismatch
  else if c % g ≠ 0 then .error .groupMismatch
  else if x.c ≠ c then .error .shapeMismatch
  else .ok x

/-- `Conv1dBlock` from unets.py lines 347-363: Conv1d (same padding `k // 2`) →
GroupNorm → Mish (pointwise, shape preserving). -/
def conv1dBlockShape (cin cout k g : Nat) (x : Shape3) : Except UErr Shape3 := do
  let x1 ← conv1dShape cin cout k 1 (k / 2) x
  groupNormShape g cout x1

/-- `nn.Linear(din, dout)` on a `(B, din)` input. -/
def linearShape (din dout : Nat) (x : Shape2) : Except UErr Shape2 :=
  if x.d ≠ din then .error .shapeMismatch else .ok ⟨x.b, dout⟩

/-- Broadcast of one tensor dimension against another (torch semantics: equal, or
one of them is 1). -/
def bdim (a b : Nat) : Except UErr Nat :=
  if a = b then .ok a
  else if a = 1 then .ok b
  else if b = 1 then .ok a
  else .error .shapeMismatch

/-- Broadcast elementwise combination (e.g. `+`, `*`) of two rank-3 shapes. -/
def broadcast3 (x y : Shape3) : Except UErr Shape3 := do
  let b ← bdim x.b y.b
  let c ← bdim x.c y.c
  let l ← bdim x.l y.l
  .ok ⟨b, c, l⟩

/-- `torch.cat((x, y), dim=1)`: channel concatenation, other dims must match. -/
def catShape (x y : Shape3) : Except UErr Shape3 :=
  if x.b = y.b ∧ x.l = y.l then .ok ⟨x.b, x.c + y.c, x.l⟩ else .error .shapeMismatch

/-- `torch.cat([x, y], axis=-1)` on rank-2 tensors: feature concatenation. -/
def catShape2 (x y : Shape2) : Except UErr Shape2 :=
  if x.b = y.b then .ok ⟨x.b, x.d + y.d⟩ else .error .shapeMismatch

/-- Parameters of a `ConditionalResidualBlock1D` (unets.py lines 277-307). -/
structure CRBParams where
  cin : Nat
  cout : Nat
  cond_dim : Nat
  k : Nat
  g : Nat
  predictScale : Bool
deriving DecidableEq, Repr

/-- `cond_channels` from `ConditionalResidualBlock1D.__init__` lines 294-296:
`out_channels * 2` when `cond_predict_scale` else `out_channels`. -/
def condChannels (p : CRBParams) : Nat :=
  if p.predictScale then 2 * p.cout else p.cout

/-- Shape of `self.cond_encoder`: Mish → `nn.Linear(cond_dim, cond_channels)` →
`Rearrange('batch t -> batch t 1')` (lines 299-303). -/
def condEncoderShape (p : CRBParams) (cond : Shape2) : Except UErr Shape3 := do
  let e ← linearShape p.cond_dim (condChannels p) cond
  .ok ⟨e.b, e.d, 1⟩

/-- Shape semantics of `ConditionalResidualBlock1D.forward` (lines 309-329):
two `Conv1dBlock`s with FiLM-style conditioning after the first, plus residual path
(`nn.Conv1d(cin, cout, 1)` when widths differ, identity otherwise, lines 305-307). -/
def crbShape (p : CRBParams) (x : Shape3) (cond : Shape2) : Except UErr Shape3 := do
  let out ← conv1dBlockShape p.cin p.cout p.k p.g x
  let embed ← condEncoderShape p cond
  let out2 ←
    if p.predictScale then
      -- embed.reshape(B, 2, cout, 1); scale = embed[:,0,...]; bias = embed[:,1,...]
      if embed.c * embed.l = 2 * p.cout then do
        let scale : Shape3 := ⟨embed.b, p.cout, 1⟩
        let bias : Shape3 := ⟨embed.b, p.cout, 1⟩
        let so ← broadcast3 scale out
        broadcast3 so bias
      else .error .shapeMismatch
    else broadcast3 out embed
  let out3 ← conv1dBlockShape p.cout p.cout p.k p.g out2
  let res ← if p.cin ≠ p.cout then conv1dShape p.cin p.cout 1 1 0 x else .ok x
  broadcast3 out3 res

/-- The resampling operator held by a U-Net stage. -/
inductive Resample where
  | downsample
  | upsample
  | identity
deriving DecidableEq, Repr

/-- One stage of `down_modules` / `up_modules`: the `(dim_in, dim_out)` pair of its
residual blocks plus its resampling operator. -/
structure UStage where
  dim_in : Nat
  dim_out : Nat
  resample : Resample
deriving DecidableEq, Repr

/-- `all_dims = [input_dim] + list(down_dims)` (line 44). -/
def allDims (input_dim : Nat) (down_dims : List Nat) : List Nat :=
  input_dim :: down_dims

/-- `in_out = list(zip(all_dims[:-1], all_dims[1:]))` (line 58). -/
def inOut (input_dim : Nat) (down_dims : List Nat) : List (Nat × Nat) :=
  (allDims input_dim down_dims).zip ((allDims input_dim down_dims).drop 1)

/-- `for ind, (dim_in, dim_out) in enumerate(in_out)` with
`is_last = ind >= (len(in_out) - 1)` (lines 91-104): counter-threaded version;
`total` is `len(in_out)`. -/
def mkDownStagesAux (total : Nat) : Nat → List (Nat × Nat) → List UStage
  | _, [] => []
  | ind, p :: rest =>
    ⟨p.1, p.2, if total - 1 ≤ ind then .identity else .downsample⟩ ::
      mkDownStagesAux total (ind + 1) rest

/-- `down_modules` stage list from `ConditionalUnet1D.__init__` lines 91-104. -/
def mkDownStages (in_out : List (Nat × Nat)) : List UStage :=
  mkDownStagesAux in_out.length 0 in_out

/-- `for ind, (dim_in, dim_out) in enumerate(reversed(in_out[1:]))` with
`is_last = ind >= (len(in_out) - 1)` (lines 106-119). Note: the bound is the length
of `in_out`, not of the reversed slice being enumerated. -/
def mkUpStagesAux (total : Nat) : Nat → List (Nat × Nat) → List UStage
  | _, [] => []
  | ind, p :: rest =>
    ⟨p.1, p.2, if total - 1 ≤ ind then .identity else .upsample⟩ ::
      mkUpStagesAux total (ind + 1) rest

/-- `up_modules` stage list from `ConditionalUnet1D.__init__` lines 106-119. -/
def mkUpStages (in_out : List (Nat × Nat)) : List UStage :=
  mkUpStagesAux in_out.length 0 ((in_out.drop 1).reverse)

/-- Construction parameters of `ConditionalUnet1D` (lines 31-41). -/
structure UnetCfg where
  input_dim : Nat
  local_cond_dim : Option Nat
  global_cond_dim : Option Nat
  dsed : Nat
  down_dims : List Nat
  kernel : Nat
  n_groups : Nat
  predictScale : Bool
  returns_condition : Bool
deriving DecidableEq, Repr

/-- `cond_dim = dsed (+ global_cond_dim if given)` (lines 54-56). -/
def condDim (c : UnetCfg) : Nat :=
  c.dsed + c.global_cond_dim.getD 0

/-- Residual-block parameters as instantiated throughout `__init__`. -/
def crbP (c : UnetCfg) (cin cout : Nat) : CRBParams :=
  ⟨cin, cout, condDim c, c.kernel, c.n_groups, c.predictScale⟩

/-- Apply a stage's resampling operator (`Downsample1d(dim)` / `Upsample1d(dim)` /
`nn.Identity()`). -/
def resampleShape (r : Resample) (dim : Nat) (x : Shape3) : Except UErr Shape3 :=
  match r with
  | .downsample => downsample1dShape dim x
  | .upsample => upsample1dShape dim x
  | .identity => .ok x

/-- Timestep argument forms accepted by `forward` (a plain Python number, a
zero-dimensional tensor, or a 1-D tensor). -/
inductive TimestepIn where
  | num (q : ℚ)
  | zeroDim (q : ℚ)
  | vec (v : List ℚ)
deriving DecidableEq, Repr

/-- `torch.tensor([x], dtype=torch.long)` casts toward zero (C-style truncation). -/
def truncToLong (q : ℚ) : ℤ :=
  Int.tdiv q.num q.den

/-- `t.expand(B)` on a 1-D tensor: a no-op when the length is already `B`, valid
when the length is 1, an error otherwise. -/
def expandTo (B : Nat) (v : List ℚ) : Except UErr (List ℚ) :=
  if v.length = B then .ok v
  else if v.length = 1 then .ok (List.replicate B (v.headD 0))
  else .error .expandMismatch

/-- Timestep normalisation from `forward` lines 146-153: plain numbers become a
one-element long tensor, zero-dim tensors get a leading axis, then everything is
expanded to the batch size. -/
def normalizeTimesteps (B : Nat) : TimestepIn → Except UErr (List ℚ)
  | .num q => expandTo B [((truncToLong q : ℤ) : ℚ)]
  | .zeroDim q => expandTo B [q]
  | .vec v => expandTo B v

/-- Modelled from the spec: `SinusoidalPosEmb` is imported from
`maniskill2_learn.utils.diffusion.helpers`, which is not part of the sources here;
per spec section 4.1 it "maps a scalar diffusion timestep to a fixed-size feature
vector", i.e. a `(B,)` input becomes a `(B, dim)` output. -/
def sinusoidalPosEmbShape (dim batch : Nat) : Shape2 :=
  ⟨batch, dim⟩

/-- `self.diffusion_step_encoder` (lines 48-53): SinusoidalPosEmb(dsed) →
Linear(dsed, 4*dsed) → Mish → Linear(4*dsed, dsed), applied to the normalised
timesteps of length `n`. -/
def diffusionStepEncoderShape (c : UnetCfg) (n : Nat) : Except UErr Shape2 := do
  let e1 ← linearShape c.dsed (c.dsed * 4) (sinusoidalPosEmbShape c.dsed n)
  linearShape (c.dsed * 4) c.dsed e1

/-- Attributes assigned on `self` in `ConditionalUnet1D.__init__`
(lines 43, 78, 126-130). Neither `returns_mlp` nor `mask_dist` is ever assigned. -/
def initAttrs : List String :=
  ["returns_condition", "mid_modules", "diffusion_step_encoder", "local_cond_encoder",
   "up_modules", "down_modules", "final_conv"]

/-- The `returns_condition` branch of `forward` (lines 162-172): asserts `returns`
is supplied, then evaluates `self.returns_mlp(returns)` — an attribute lookup that
fails since `__init__` never assigns it (as would `self.mask_dist`, and line 172
reads an undefined local `t`). -/
def returnsBranchShape (c : UnetCfg) (returns_arg : Option Shape2) : Except UErr Unit :=
  if c.returns_condition then
    match returns_arg with
    | none => .error .assertFailed
    | some _ =>
      if initAttrs.contains "returns_mlp" then
        if initAttrs.contains "mask_dist" then .error (.nameMissing "t")
        else .error (.attrMissing "mask_dist")
      else .error (.attrMissing "returns_mlp")
  else .ok ()

/-- Lines 157-160 of `forward`: concatenate `global_cond` onto the timestep
embedding when it is supplied. -/
def globalCatShape (gf0 : Shape2) (global_cond : Option Shape2) : Except UErr Shape2 :=
  match global_cond with
  | some gc => catShape2 gf0 gc
  | none => .ok gf0

/-- The local-conditioning encoder pass of `forward` (lines 175-182): when
`local_cond` is given it is rearranged to channel-major and pushed through the two
blocks of `self.local_cond_encoder` (built at lines 60-75 with
`dim_in = local_cond_dim`, `dim_out = in_out[0][1]`); unpacking a `None` encoder
raises. -/
def localEncoderShape (c : UnetCfg) (cond : Shape2) (local_cond : Option Shape3) :
    Except UErr (List Shape3) :=
  match local_cond with
  | none => .ok []
  | some lc =>
    match c.local_cond_dim with
    | none => .error .typeBad
    | some lcd => do
      let lcr : Shape3 := ⟨lc.b, lc.l, lc.c⟩
      let h0 ← crbShape (crbP c lcd (c.down_dims.headD 0)) lcr cond
      let h1 ← crbShape (crbP c lcd (c.down_dims.headD 0)) lcr cond
      .ok [h0, h1]

/-- `if idx == 0 and len(h_local) > 0: x = x + h_local[0]` (lines 188-189). -/
def localInject0 (hlocal : List Shape3) (idx : Nat) (x1 : Shape3) : Except UErr Shape3 :=
  if idx = 0 ∧ 0 < hlocal.length then
    match hlocal with
    | h0 :: _ => broadcast3 x1 h0
    | [] => .ok x1
  else .ok x1

/-- `if idx == len(self.up_modules) and len(h_local) > 0: x = x + h_local[1]`
(lines 200-201); `total` is `len(self.up_modules)`. -/
def localInject1 (total : Nat) (hlocal : List Shape3) (idx : Nat) (x1 : Shape3) :
    Except UErr Shape3 :=
  if idx = total ∧ 0 < hlocal.length then
    match hlocal[1]? with
    | some h1 => broadcast3 x1 h1
    | none => .error .indexOut
  else .ok x1

/-- Body of one encoder iteration (lines 186-192): resnet, optional additive local
injection at stage 0, resnet2, push onto the skip stack `h`, then resample. -/
def encodeStep (c : UnetCfg) (hlocal : List Shape3) (cond : Shape2) (idx : Nat)
    (s : UStage) (x : Shape3) (h : List Shape3) : Except UErr (Shape3 × List Shape3) := do
  let x1 ← crbShape (crbP c s.dim_in s.dim_out) x cond
  let x2 ← localInject0 hlocal idx x1
  let x3 ← crbShape (crbP c s.dim_out s.dim_out) x2 cond
  let x4 ← resampleShape s.resample s.dim_out x3
  .ok (x4, x3 :: h)

/-- The encoder loop `for idx, (resnet, resnet2, downsample) in enumerate(self.down_modules)`
(lines 184-192), threading the activation and the skip stack. -/
def encodeLoop (c : UnetCfg) (hlocal : List Shape3) (cond : Shape2) :
    Nat → List UStage → Shape3 → List Shape3 → Except UErr (Shape3 × List Shape3)
  | _, [], x, h => .ok (x, h)
  | idx, s :: rest, x, h => do
    let r ← encodeStep c hlocal cond idx s x h
    encodeLoop c hlocal cond (idx + 1) rest r.1 r.2

/-- Body of one decoder iteration (lines 197-203): pop the skip stack, concatenate
along channels, resnet, the (dead) local injection guarded by
`idx == len(self.up_modules)`, resnet2, then resample. -/
def decodeStep (c : UnetCfg) (total : Nat) (hlocal : List Shape3) (cond : Shape2)
    (idx : Nat) (s : UStage) (x : Shape3) (h : List Shape3) :
    Except UErr (Shape3 × List Shape3) :=
  match h with
  | [] => .error .popEmpty
  | top :: hrest => do
    let xc ← catShape x top
    let x1 ← crbShape (crbP c (s.dim_out * 2) s.dim_in) xc cond
    let x2 ← localInject1 total hlocal idx x1
    let x3 ← crbShape (crbP c s.dim_in s.dim_in) x2 cond
    let x4 ← resampleShape s.resample s.dim_in x3
    .ok (x4, hrest)

/-- The decoder loop `for idx, (resnet, resnet2, upsample) in enumerate(self.up_modules)`
(lines 197-203); `total` is `len(self.up_modules)` as used by the injection guard. -/
def decodeLoop (c : UnetCfg) (total : Nat) (hlocal : List Shape3) (cond : Shape2) :
    Nat → List UStage → Shape3 → List Shape3 → Except UErr (Shape3 × List Shape3)
  | _, [], x, h => .ok (x, h)
  | idx, s :: rest, x, h => do
    let r ← decodeStep c total hlocal cond idx s x h
    decodeLoop c total hlocal cond (idx + 1) rest r.1 r.2

/-- Shape semantics of `ConditionalUnet1D.forward` (lines 132-208). The input
`sample` is `(B, horizon, channels)`; the result is the output shape, or the runtime
error the forward pass raises. -/
def forwardShape (c : UnetCfg) (sample : Shape3) (timestep : TimestepIn)
    (local_cond : Option Shape3) (global_cond : Option Shape2)
    (returns_arg : Option Shape2) : Except UErr Shape3 := do
  -- einops.rearrange(sample, 'b h t -> b t h')
  let x0 : Shape3 := ⟨sample.b, sample.l, sample.c⟩
  let ts ← normalizeTimesteps sample.b timestep
  let gf0 ← diffusionStepEncoderShape c ts.length
  let gf ← globalCatShape gf0 global_cond
  let _ ← returnsBranchShape c returns_arg
  let hlocal ← localEncoderShape c gf local_cond
  let downs := mkDownStages (inOut c.input_dim c.down_dims)
  let re ← encodeLoop c hlocal gf 0 downs x0 []
  let mid := (allDims c.input_dim c.down_dims).getLastD 0
  let xm1 ← crbShape (crbP c mid mid) re.1 gf
  let xm2 ← crbShape (crbP c mid mid) xm1 gf
  let ups := mkUpStages (inOut c.input_dim c.down_dims)
  let rd ← decodeLoop c ups.length hlocal gf 0 ups xm2 re.2
  -- final_conv: Conv1dBlock(start_dim, start_dim, kernel) then Conv1d(start_dim, input_dim, 1)
  let start := c.down_dims.headD 0
  let xf1 ← conv1dBlockShape start start c.kernel c.n_groups rd.1
  let xf2 ← conv1dShape start c.input_dim 1 1 0 xf1
  -- einops.rearrange(x, 'b t h -> b h t')
  .ok ⟨xf2.b, xf2.l, xf2.c⟩

/-- Iterated ceiling halving: the sequence length after `i` strided `Downsample1d`
applications. -/
def ceilHalfIter : Nat → Nat → Nat
  | 0, L => L
  | i + 1, L => ceilHalfIter i ((L + 1) / 2)

/-- The skip stack the encoder builds from input length `L` over the given
`down_dims` chain: head is the deepest (most recent) push. -/
def encStack (B : Nat) : Nat → List Nat → List Shape3
  | _, [] => []
  | L, d :: rest => encStack B ((L + 1) / 2) rest ++ [⟨B, d, L⟩]

/-- Recursive characterisation of the `down_modules` stage list: every stage pairs
consecutive dims and down-samples, except the last, which is the identity. -/
def chainDown : Nat → List Nat → List UStage
  | _, [] => []
  | a, [d] => [⟨a, d, .identity⟩]
  | a, d :: d2 :: rest => ⟨a, d, .downsample⟩ :: chainDown d (d2 :: rest)

/-- The `(dim_in, dim_out)` pairs enumerated by the `up_modules` loop:
`reversed(in_out[1:])`. -/
def upPairs (a : Nat) (dims : List Nat) : List (Nat × Nat) :=
  ((inOut a dims).drop 1).reverse

/-- An up stage as actually built: both resnet dims plus `Upsample1d(dim_in)`. -/
def upStageOf (p : Nat × Nat) : UStage :=
  ⟨p.1, p.2, .upsample⟩

/- ------------------------------------------------------------------ -/
/- Value semantics over rational tensors, for the residual-block claims. -/

/-- Rank-1 rational tensor. -/
abbrev Tens1 := List ℚ

/-- Rank-2 rational tensor (batch of vectors). -/
abbrev Tens2 := List Tens1

/-- Rank-3 rational tensor (batch × channels × length). -/
abbrev Tens3 := List (List (List ℚ))

/-- Dot product (zipped, so extra trailing entries are ignored). -/
def dotQ (w v : Tens1) : ℚ :=
  ((w.zip v).map (fun p => p.1 * p.2)).sum

/-- `nn.Linear` on one example: row-wise dot products plus bias. -/
def linearVal (W : List Tens1) (bias : Tens1) (v : Tens1) : Tens1 :=
  (W.zip bias).map (fun rb => dotQ rb.1 v + rb.2)

/-- `self.cond_encoder` on one example (lines 299-303): Mish (the scalar activation
`act`) then `nn.Linear(cond_dim, cond_channels)`; the trailing `Rearrange` only
adds a length-1 axis, handled at the application sites. -/
def condEncoderVal (act : ℚ → ℚ) (W : List Tens1) (bias : Tens1) (cond : Tens1) : Tens1 :=
  linearVal W bias (cond.map act)

/-- `nn.Conv1d(cin, cout, 1)` values: per output channel, a weighted sum of input
channels plus bias. -/
def conv1x1Val (W : List Tens1) (bias : Tens1) (x : Tens3) : Tens3 :=
  x.map (fun chs =>
    (W.zip bias).map (fun rb =>
      (rb.1.zip chs).foldl
        (fun acc wc => List.zipWith (fun a q => a + wc.1 * q) acc wc.2)
        (List.replicate (chs.headD []).length rb.2)))

/-- Elementwise sum of two rank-3 tensors. -/
def t3Add (x y : Tens3) : Tens3 :=
  List.zipWith (List.zipWith (List.zipWith (· + ·))) x y

/-- `out + embed` with `embed` of shape `(cout, 1)` broadcast along the length. -/
def addChanBias (embed : Tens1) (chs : List Tens1) : List Tens1 :=
  List.zipWith (fun e ch => ch.map (fun q => q + e)) embed chs

/-- `scale * out + bias` with `(cout, 1)` scale/bias broadcast along the length. -/
def applyScaleBias (scale bias : Tens1) (chs : List Tens1) : List Tens1 :=
  List.zipWith (fun sb ch => ch.map (fun q => sb.1 * q + sb.2)) (scale.zip bias) chs

/-- A `ConditionalResidualBlock1D` with its learned sub-modules as denotations:
the two `Conv1dBlock`s are opaque functions (they contain GroupNorm/Mish), the
conditioning encoder carries its activation and linear weights explicitly, and the
residual 1×1 convolution carries its weights. -/
structure CRBVal where
  cin : Nat
  cout : Nat
  block0 : Tens3 → Tens3
  block1 : Tens3 → Tens3
  act : ℚ → ℚ
  condW : List Tens1
  condB : Tens1
  resW : List Tens1
  resB : Tens1
  predictScale : Bool

/-- `self.residual_conv` (lines 305-307): `nn.Conv1d(in_channels, out_channels, 1)`
if `in_channels != out_channels` else `nn.Identity()`. -/
def residualConv (m : CRBVal) : Tens3 → Tens3 :=
  if m.cin ≠ m.cout then conv1x1Val m.resW m.resB else fun x => x

/-- The FiLM/additive conditioning step (lines 319-326): with scale prediction the
`2*cout` projection is reshaped to `(B, 2, cout, 1)` — scale is the first `cout`
entries, bias the rest — and applied as `scale * out + bias`; otherwise the
projection is added per channel. -/
def filmStage (m : CRBVal) (out : Tens3) (embed : Tens2) : Tens3 :=
  if m.predictScale then
    List.zipWith (fun e chs => applyScaleBias (e.take m.cout) (e.drop m.cout) chs) embed out
  else
    List.zipWith addChanBias embed out

/-- The main (non-residual) path of `ConditionalResidualBlock1D.forward`:
`blocks[1]` applied to the conditioned output of `blocks[0]` (lines 317-327). -/
def crbMainPath (m : CRBVal) (x : Tens3) (cond : Tens2) : Tens3 :=
  m.block1 (filmStage m (m.block0 x) (cond.map (condEncoderVal m.act m.condW m.condB)))

/-- Value semantics of `ConditionalResidualBlock1D.forward` (lines 309-329). -/
def crbForwardVal (m : CRBVal) (x : Tens3) (cond : Tens2) : Tens3 :=
  let out := m.block0 x
  let embed := cond.map (condEncoderVal m.act m.condW m.condB)
  let out2 := filmStage m out embed
  let out3 := m.block1 out2
  t3Add out3 (residualConv m x)

/-- An all-zero weight matrix (zero initialisation of the conditioning projection). -/
def zeroMatQ (rows cols : Nat) : List Tens1 :=
  List.replicate rows (List.replicate cols 0)

/- ------------------------------------------------------------------ -/
/- Generic value-level encoder/decoder loops, used to state that the dead
   decoder-side local-conditioning injection cannot influence the result. -/

/-- The decoder loop of `forward` (lines 197-203) over an arbitrary value type `V`:
each module is the triple of its (resnet, resnet2, upsample) denotations with the
conditioning baked in; `cat` is channel concatenation, `add` the injection sum,
`total` is `len(self.up_modules)`. Popping an empty stack yields `none`. -/
def decodeValAux {V : Type} (cat : V → V → V) (add : V → V → V) (total : Nat)
    (hlocal : List V) : Nat → List ((V → V) × (V → V) × (V → V)) → V → List V →
    Option (V × List V)
  | _, [], x, h => some (x, h)
  | idx, m :: rest, x, h =>
    match h with
    | [] => none
    | top :: hrest =>
      let x1 := m.1 (cat x top)
      let x2 :=
        if idx = total ∧ 0 < hlocal.length then
          match hlocal[1]? with
          | some h1 => add x1 h1
          | none => x1
        else x1
      let x3 := m.2.1 x2
      decodeValAux cat add total hlocal (idx + 1) rest (m.2.2 x3) hrest

/-- Value-level decoder entry point: `total` is the module count, exactly as in
`idx == len(self.up_modules)`. -/
def decodeVal {V : Type} (cat add : V → V → V)
    (mods : List ((V → V) × (V → V) × (V → V))) (hlocal : List V) (x : V) (h : List V) :
    Option (V × List V) :=
  decodeValAux cat add mods.length hlocal 0 mods x h

/-- The encoder loop of `forward` (lines 186-192) over an arbitrary value type `V`;
the local injection `add` fires only at `idx = 0` when `h_local` is non-empty. -/
def encodeValAux {V : Type} (add : V → V → V) (hlocal : List V) :
    Nat → List ((V → V) × (V → V) × (V → V)) → V → List V → V × List V
  | _, [], x, h => (x, h)
  | idx, m :: rest, x, h =>
    let x1 := m.1 x
    let x2 :=
      if idx = 0 ∧ 0 < hlocal.length then
        match hlocal with
        | h0 :: _ => add x1 h0
        | [] => x1
      else x1
    let x3 := m.2.1 x2
    encodeValAux add hlocal (idx + 1) rest (m.2.2 x3) (x3 :: h)

/-- Lines 155-160 of `forward`: the conditioning vector is the timestep embedding,
with `global_cond` concatenated when supplied. -/
def globalFeatureVal {V : Type} (catf : V → V → V) (emb : V) (global_cond : Option V) : V :=
  match global_cond with
  | some gc => catf emb gc
  | none => emb

/-- A small two-stage configuration (input_dim 7, down_dims [32, 64]) used for
concrete evaluations. -/
def cfgW2 : UnetCfg :=
  ⟨7, none, none, 256, [32, 64], 3, 8, false, false⟩

/-- A three-stage configuration (down_dims [32, 64, 128]). -/
def cfgW3 : UnetCfg :=
  ⟨7, none, none, 256, [32, 64, 128], 3, 8, false, false⟩

/-- A configuration with `returns_condition=True`. -/
def cfgWR : UnetCfg :=
  ⟨7, none, none, 256, [32, 64], 3, 8, false, true⟩

/-- A configuration with local and global conditioning and FiLM scale prediction. -/
def cfgWC : UnetCfg :=
  ⟨7, some 5, some 11, 256, [16, 32], 3, 8, true, false⟩

/- ------------------------------------------------------------------ -/
/- Helper lemmas: structure of the stage lists. -/

theorem inOut_nil (a : Nat) : inOut a [] = [] := rfl

theorem inOut_cons (a d : Nat) (rest : List Nat) :
    inOut a (d :: rest) = (a, d) :: inOut d rest := by
  simp [inOut, allDims]

theorem inOut_length (a : Nat) (dims : List Nat) :
    (inOut a dims).length = dims.length := by
  induction dims generalizing a with
  | nil => rfl
  | cons d rest ih => rw [inOut_cons]; simp [ih]

theorem mkDownStagesAux_eq_chain : ∀ (dims : List Nat) (a ind total : Nat),
    ind + dims.length = total →
    mkDownStagesAux total ind (inOut a dims) = chainDown a dims := by
  intro dims
  induction dims with
  | nil => intro a ind total h; rw [inOut_nil]; rfl
  | cons d rest ih =>
    intro a ind total h
    cases rest with
    | nil =>
      rw [inOut_cons, inOut_nil]
      have hle : total - 1 ≤ ind := by simp at h; omega
      simp [mkDownStagesAux, chainDown, hle]
    | cons d2 rest2 =>
      rw [inOut_cons]
      have hlt : ¬ (total - 1 ≤ ind) := by simp at h; omega
      simp only [mkDownStagesAux, chainDown, if_neg hlt, List.cons.injEq, true_and]
      exact ih d (ind + 1) total (by simp at h ⊢; omega)

theorem mkDownStages_eq_chain (a : Nat) (dims : List Nat) :
    mkDownStages (inOut a dims) = chainDown a dims :=
  mkDownStagesAux_eq_chain dims a 0 _ (by rw [inOut_length]; omega)

theorem mkUpStagesAux_all_up : ∀ (l : List (Nat × Nat)) (ind total : Nat),
    ind + l.length < total →
    mkUpStagesAux total ind l = l.map upStageOf := by
  intro l
  induction l with
  | nil => intro ind total h; rfl
  | cons p rest ih =>
    intro ind total h
    have hlt : ¬ (total - 1 ≤ ind) := by simp at h; omega
    simp only [mkUpStagesAux, if_neg hlt, List.map_cons, upStageOf, List.cons.injEq, true_and]
    exact ih (ind + 1) total (by simp at h; omega)

theorem mkUpStages_eq_map (a : Nat) (dims : List Nat) (hne : dims ≠ []) :
    mkUpStages (inOut a dims) = (upPairs a dims).map upStageOf := by
  unfold mkUpStages upPairs
  apply mkUpStagesAux_all_up
  have hpos : 0 < dims.length := List.length_pos.mpr hne
  simp [inOut_length]
  omega

theorem upPairs_length (a : Nat) (dims : List Nat) :
    (upPairs a dims).length = dims.length - 1 := by
  simp [upPairs, inOut_length]

theorem upPairs_singleton (a d : Nat) : upPairs a [d] = [] := rfl

theorem upPairs_cons_cons (a d1 d2 : Nat) (rest : List Nat) :
    upPairs a (d1 :: d2 :: rest) = upPairs d1 (d2 :: rest) ++ [(d1, d2)] := by
  unfold upPairs
  rw [inOut_cons a d1, inOut_cons d1 d2]
  simp

theorem chainDown_ne_nil (a : Nat) (dims : List Nat) (hne : dims ≠ []) :
    chainDown a dims ≠ [] := by
  cases dims with
  | nil => exact absurd rfl hne
  | cons d rest => cases rest <;> simp [chainDown]

theorem chainDown_length : ∀ (dims : List Nat) (a : Nat),
    (chainDown a dims).length = dims.length := by
  intro dims
  induction dims with
  | nil => intro a; rfl
  | cons d rest ih =>
    intro a
    cases rest with
    | nil => rfl
    | cons d2 rest2 => simp only [chainDown, List.length_cons, ih d]

theorem getLastD_cons_eq {α : Type} (a : α) (l : List α) (d : α) :
    (a :: l).getLastD d = l.getLastD a := by
  cases l <;> simp [List.getLastD]

theorem getLastD_irrel {α : Type} (l : List α) (hne : l ≠ []) (d1 d2 : α) :
    l.getLastD d1 = l.getLastD d2 := by
  cases l with
  | nil => exact absurd rfl hne
  | cons x t => rw [getLastD_cons_eq, getLastD_cons_eq]

theorem getLastD_mem {α : Type} : ∀ (l : List α) (hne : l ≠ []) (d : α), l.getLastD d ∈ l := by
  intro l
  induction l with
  | nil => intro h; exact absurd rfl h
  | cons x t ih =>
    intro _ d
    rw [getLastD_cons_eq]
    cases t with
    | nil => simp [List.getLastD]
    | cons y u => exact List.mem_cons_of_mem x (ih (by simp) x)

theorem chainDown_resample : ∀ (dims : List Nat) (a : Nat), dims ≠ [] →
    ((chainDown a dims).getLastD ⟨0, 0, .downsample⟩).resample = .identity ∧
    (∀ s ∈ (chainDown a dims).dropLast, s.resample = .downsample) := by
  intro dims
  induction dims with
  | nil => intro a h; exact absurd rfl h
  | cons d rest ih =>
    intro a _
    cases rest with
    | nil => simp [chainDown, List.getLastD]
    | cons d2 rest2 =>
      have hne2 : chainDown d (d2 :: rest2) ≠ [] := chainDown_ne_nil d _ (by simp)
      obtain ⟨h1, h2⟩ := ih d (by simp)
      constructor
      · rw [show chainDown a (d :: d2 :: rest2) =
            ⟨a, d, .downsample⟩ :: chainDown d (d2 :: rest2) from rfl]
        rw [getLastD_cons_eq]
        rw [getLastD_irrel _ hne2 _ (⟨0, 0, .downsample⟩ : UStage)]
        exact h1
      · rw [show chainDown a (d :: d2 :: rest2) =
            ⟨a, d, .downsample⟩ :: chainDown d (d2 :: rest2) from rfl]
        rw [List.dropLast_cons_of_ne_nil hne2]
        intro s hs
        rcases List.mem_cons.mp hs with h | h
        · rw [h]
        · exact h2 s h

/- ------------------------------------------------------------------ -/
/- Helper lemmas: the primitive shape operations. -/

theorem bdim_self (a : Nat) : bdim a a = .ok a := by simp [bdim]

theorem bdim_one_right (a : Nat) : bdim a 1 = .ok a := by
  unfold bdim
  rcases eq_or_ne a 1 with h | h
  · simp [h]
  · simp [h]

theorem bdim_one_left (b : Nat) : bdim 1 b = .ok b := by
  unfold bdim
  rcases eq_or_ne b 1 with h | h
  · simp [h]
  · rw [if_neg (by omega), if_pos rfl]

theorem broadcast3_self (x : Shape3) : broadcast3 x x = .ok x := by
  simp [broadcast3, bdim_self, Bind.bind, Except.bind]

theorem conv1dBlockShape_ok (cin cout k g B L : Nat) (hk : k % 2 = 1) (hg : g ≠ 0)
    (hcg : cout % g = 0) (hL : 1 ≤ L) :
    conv1dBlockShape cin cout k g ⟨B, cin, L⟩ = .ok ⟨B, cout, L⟩ := by
  have h1 : ¬ (L + 2 * (k / 2) < k) := by omega
  have h2 : L + 2 * (k / 2) - k + 1 = L := by omega
  simp [conv1dBlockShape, conv1dShape, groupNormShape, h1, h2, hg, hcg,
    Bind.bind, Except.bind]

theorem condEncoderShape_ok (p : CRBParams) (B : Nat) :
    condEncoderShape p ⟨B, p.cond_dim⟩ = .ok ⟨B, condChannels p, 1⟩ := by
  simp [condEncoderShape, linearShape, Bind.bind, Except.bind]

theorem crbShape_ok (p : CRBParams) (B L : Nat) (hk : p.k % 2 = 1) (hg : p.g ≠ 0)
    (hcg : p.cout % p.g = 0) (hL : 1 ≤ L) :
    crbShape p ⟨B, p.cin, L⟩ ⟨B, p.cond_dim⟩ = .ok ⟨B, p.cout, L⟩ := by
  obtain ⟨cin, cout, cd, k, g, ps⟩ := p
  simp only at hk hg hcg
  have hblk1 : conv1dBlockShape cin cout k g ⟨B, cin, L⟩ = .ok ⟨B, cout, L⟩ :=
    conv1dBlockShape_ok cin cout k g B L hk hg hcg hL
  have hblk2 : conv1dBlockShape cout cout k g ⟨B, cout, L⟩ = .ok ⟨B, cout, L⟩ :=
    conv1dBlockShape_ok cout cout k g B L hk hg hcg hL
  have hL1 : L - 1 + 1 = L := by omega
  have hL0 : ¬ (L + 2 * 0 < 1) := by omega
  have hLne : L ≠ 0 := by omega
  cases ps with
  | false =>
    have hce : condEncoderShape ⟨cin, cout, cd, k, g, false⟩ ⟨B, cd⟩ = .ok ⟨B, cout, 1⟩ := by
      simp [condEncoderShape, linearShape, condChannels, Bind.bind, Except.bind]
    rcases eq_or_ne cin cout with hc | hc
    · subst hc
      simp [crbShape, Bind.bind, Except.bind, hblk1, hblk2, hce,
        broadcast3, bdim_self, bdim_one_right]
    · simp [crbShape, Bind.bind, Except.bind, hblk1, hblk2, hce,
        broadcast3, bdim_self, bdim_one_right, hc, conv1dShape, hL0, hL1, hLne]
  | true =>
    have hce : condEncoderShape ⟨cin, cout, cd, k, g, true⟩ ⟨B, cd⟩ = .ok ⟨B, 2 * cout, 1⟩ := by
      simp [condEncoderShape, linearShape, condChannels, Bind.bind, Except.bind]
    rcases eq_or_ne cin cout with hc | hc
    · subst hc
      simp [crbShape, Bind.bind, Except.bind, hblk1, hblk2, hce,
        broadcast3, bdim_self, bdim_one_right, bdim_one_left]
    · simp [crbShape, Bind.bind, Except.bind, hblk1, hblk2, hce,
        broadcast3, bdim_self, bdim_one_right, bdim_one_left, hc, conv1dShape, hL0, hL1, hLne]

theorem downsample1dShape_ok (dim B L : Nat) (hL : 1 ≤ L) :
    downsample1dShape dim ⟨B, dim, L⟩ = .ok ⟨B, dim, (L + 1) / 2⟩ := by
  have h1 : ¬ (L + 2 * 1 < 3) := by omega
  have h2 : (L - 1) / 2 + 1 = (L + 1) / 2 := by omega
  simp [downsample1dShape, conv1dShape, h1, h2]

theorem upsample1dShape_ok (dim B L : Nat) (hL : 1 ≤ L) :
    upsample1dShape dim ⟨B, dim, L⟩ = .ok ⟨B, dim, 2 * L⟩ := by
  have h1 : L ≠ 0 := by omega
  have h2 : (L - 1) * 2 + 4 - 2 * 1 = 2 * L := by omega
  simp [upsample1dShape, convTranspose1dShape, h1, h2]

theorem ceilHalfIter_pos : ∀ (i L : Nat), 1 ≤ L → 1 ≤ ceilHalfIter i L := by
  intro i
  induction i with
  | zero => intro L h; exact h
  | succ n ih => intro L h; exact ih ((L + 1) / 2) (by omega)

/- ------------------------------------------------------------------ -/
/- Helper lemmas: the encoder loop on a chain of stage dims. -/

theorem except_bind_ok {ε α β : Type} (a : α) (f : α → Except ε β) :
    (Except.ok a : Except ε α) >>= f = f a := rfl

theorem except_bind_error {ε α β : Type} (e : ε) (f : α → Except ε β) :
    (Except.error e : Except ε α) >>= f = Except.error e := rfl

theorem encodeStep_ok (c : UnetCfg) (hlocal : List Shape3) (idx din dout B L : Nat)
    (r : Resample) (h0 : List Shape3)
    (hk : c.kernel % 2 = 1) (hg : c.n_groups ≠ 0) (hdg : dout % c.n_groups = 0) (hL : 1 ≤ L)
    (hinj : (idx = 0 ∧ 0 < hlocal.length) → hlocal.headD ⟨0, 0, 0⟩ = ⟨B, dout, L⟩) :
    encodeStep c hlocal ⟨B, condDim c⟩ idx ⟨din, dout, r⟩ ⟨B, din, L⟩ h0 =
      (resampleShape r dout ⟨B, dout, L⟩).map (fun x4 => (x4, ⟨B, dout, L⟩ :: h0)) := by
  have hcrb1 : crbShape (crbP c din dout) ⟨B, din, L⟩ ⟨B, condDim c⟩ = .ok ⟨B, dout, L⟩ :=
    crbShape_ok (crbP c din dout) B L hk hg hdg hL
  have hcrb2 : crbShape (crbP c dout dout) ⟨B, dout, L⟩ ⟨B, condDim c⟩ = .ok ⟨B, dout, L⟩ :=
    crbShape_ok (crbP c dout dout) B L hk hg hdg hL
  have hx2 : localInject0 hlocal idx ⟨B, dout, L⟩ = .ok (⟨B, dout, L⟩ : Shape3) := by
    unfold localInject0
    by_cases hgd : idx = 0 ∧ 0 < hlocal.length
    · rw [if_pos hgd]
      have hh := hinj hgd
      cases hlocal with
      | nil => simp at hgd
      | cons h0e t =>
        simp only [List.headD] at hh
        rw [hh]
        exact broadcast3_self _
    · rw [if_neg hgd]
  unfold encodeStep
  rw [hcrb1, except_bind_ok, hx2, except_bind_ok, hcrb2, except_bind_ok]
  cases hres : resampleShape r dout ⟨B, dout, L⟩ <;>
    simp [Except.map, hres, except_bind_ok, except_bind_error]

theorem encode_chain_ok (c : UnetCfg) (hlocal : List Shape3)
    (hk : c.kernel % 2 = 1) (hg : c.n_groups ≠ 0) :
    ∀ (dims : List Nat) (a B L idx : Nat) (h0 : List Shape3),
      dims ≠ [] →
      (∀ d ∈ dims, d % c.n_groups = 0) →
      1 ≤ L →
      ((idx = 0 ∧ 0 < hlocal.length) → hlocal.headD ⟨0, 0, 0⟩ = ⟨B, dims.headD 0, L⟩) →
      encodeLoop c hlocal ⟨B, condDim c⟩ idx (chainDown a dims) ⟨B, a, L⟩ h0 =
        .ok (⟨B, dims.getLastD 0, ceilHalfIter (dims.length - 1) L⟩, encStack B L dims ++ h0) := by
  intro dims
  induction dims with
  | nil => intro a B L idx h0 hne; exact absurd rfl hne
  | cons d rest ih =>
    intro a B L idx h0 _ hdvd hL hinj
    cases rest with
    | nil =>
      have hstep := encodeStep_ok c hlocal idx a d B L .identity h0 hk hg
        (hdvd d (by simp)) hL (by intro hgd; exact hinj hgd)
      simp [chainDown, encodeLoop, hstep, resampleShape, Except.map, Bind.bind, Except.bind,
        encStack, ceilHalfIter, List.getLastD]
    | cons d2 rest2 =>
      have hstep := encodeStep_ok c hlocal idx a d B L .downsample h0 hk hg
        (hdvd d (by simp)) hL (by intro hgd; exact hinj hgd)
      have hrec := ih d B ((L + 1) / 2) (idx + 1) (⟨B, d, L⟩ :: h0) (by simp)
        (fun x hx => hdvd x (List.mem_cons_of_mem d hx)) (by omega)
        (by intro hcon; exact absurd hcon.1 (Nat.succ_ne_zero idx))
      have hlast : (d2 :: rest2).getLastD d = (d2 :: rest2).getLastD 0 :=
        getLastD_irrel _ (by simp) d 0
      simp only [chainDown, encodeLoop, hstep, resampleShape,
        downsample1dShape_ok d B L hL, Except.map, Bind.bind, Except.bind, hrec,
        List.length_cons, getLastD_cons_eq, hlast, encStack, ceilHalfIter,
        Nat.add_sub_cancel, List.append_assoc, List.singleton_append]
      rfl

/- ------------------------------------------------------------------ -/
/- Helper lemmas: the decoder loop on a chain of stage dims. -/

theorem localInject1_skip (total : Nat) (hlocal : List Shape3) (idx : Nat) (x1 : Shape3)
    (hidx : idx ≠ total) : localInject1 total hlocal idx x1 = .ok x1 := by
  unfold localInject1
  rw [if_neg (by intro hc; exact hidx hc.1)]

theorem decodeStep_ok (c : UnetCfg) (total : Nat) (hlocal : List Shape3)
    (idx din dout B L : Nat) (hrest : List Shape3)
    (hk : c.kernel % 2 = 1) (hg : c.n_groups ≠ 0) (hdg : din % c.n_groups = 0)
    (hL : 1 ≤ L) (hidx : idx ≠ total) :
    decodeStep c total hlocal ⟨B, condDim c⟩ idx (upStageOf (din, dout)) ⟨B, dout, L⟩
      (⟨B, dout, L⟩ :: hrest) = .ok (⟨B, din, 2 * L⟩, hrest) := by
  have hcat : catShape ⟨B, dout, L⟩ ⟨B, dout, L⟩ = .ok ⟨B, dout + dout, L⟩ := by
    simp [catShape]
  have hcrb1 : crbShape (crbP c (dout * 2) din) ⟨B, dout + dout, L⟩ ⟨B, condDim c⟩ =
      .ok ⟨B, din, L⟩ := by
    have h2 : dout + dout = dout * 2 := by omega
    rw [h2]
    exact crbShape_ok (crbP c (dout * 2) din) B L hk hg hdg hL
  have hcrb2 : crbShape (crbP c din din) ⟨B, din, L⟩ ⟨B, condDim c⟩ = .ok ⟨B, din, L⟩ :=
    crbShape_ok (crbP c din din) B L hk hg hdg hL
  show (do
    let xc ← catShape ⟨B, dout, L⟩ ⟨B, dout, L⟩
    let x1 ← crbShape (crbP c ((upStageOf (din, dout)).dim_out * 2) (upStageOf (din, dout)).dim_in) xc ⟨B, condDim c⟩
    let x2 ← localInject1 total hlocal idx x1
    let x3 ← crbShape (crbP c (upStageOf (din, dout)).dim_in (upStageOf (din, dout)).dim_in) x2 ⟨B, condDim c⟩
    let x4 ← resampleShape (upStageOf (din, dout)).resample (upStageOf (din, dout)).dim_in x3
    .ok (x4, hrest)) = .ok (⟨B, din, 2 * L⟩, hrest)
  show (do
    let xc ← catShape ⟨B, dout, L⟩ ⟨B, dout, L⟩
    let x1 ← crbShape (crbP c (dout * 2) din) xc ⟨B, condDim c⟩
    let x2 ← localInject1 total hlocal idx x1
    let x3 ← crbShape (crbP c din din) x2 ⟨B, condDim c⟩
    let x4 ← resampleShape .upsample din x3
    .ok (x4, hrest)) = .ok (⟨B, din, 2 * L⟩, hrest)
  rw [hcat, except_bind_ok, hcrb1, except_bind_ok,
    localInject1_skip total hlocal idx _ hidx, except_bind_ok, hcrb2, except_bind_ok]
  simp [resampleShape, upsample1dShape_ok din B L hL, except_bind_ok]

theorem decodeLoop_append (c : UnetCfg) (total : Nat) (hlocal : List Shape3) (cond : Shape2) :
    ∀ (S T : List UStage) (idx : Nat) (x : Shape3) (h : List Shape3),
      decodeLoop c total hlocal cond idx (S ++ T) x h =
        (decodeLoop c total hlocal cond idx S x h) >>=
          (fun r => decodeLoop c total hlocal cond (idx + S.length) T r.1 r.2) := by
  intro S
  induction S with
  | nil =>
    intro T idx x h
    simp [decodeLoop, except_bind_ok]
  | cons s S2 ih =>
    intro T idx x h
    show (do
        let r ← decodeStep c total hlocal cond idx s x h
        decodeLoop c total hlocal cond (idx + 1) (S2 ++ T) r.1 r.2) =
      ((do
        let r ← decodeStep c total hlocal cond idx s x h
        decodeLoop c total hlocal cond (idx + 1) S2 r.1 r.2) >>=
        fun r => decodeLoop c total hlocal cond (idx + (S2.length + 1)) T r.1 r.2)
    cases hstep : decodeStep c total hlocal cond idx s x h with
    | error e => simp only [except_bind_error]
    | ok r =>
      rw [except_bind_ok, except_bind_ok, ih]
      have harith : idx + 1 + S2.length = idx + (S2.length + 1) := by omega
      simp only [harith]

theorem decode_chain_ok (c : UnetCfg) (hlocal : List Shape3)
    (hk : c.kernel % 2 = 1) (hg : c.n_groups ≠ 0) :
    ∀ (dims : List Nat) (a B L idx total : Nat) (h0 : List Shape3),
      dims ≠ [] →
      (∀ d ∈ dims, d % c.n_groups = 0) →
      2 ^ (dims.length - 1) ∣ L →
      1 ≤ L →
      idx + (dims.length - 1) ≤ total →
      decodeLoop c total hlocal ⟨B, condDim c⟩ idx ((upPairs a dims).map upStageOf)
          ⟨B, dims.getLastD 0, ceilHalfIter (dims.length - 1) L⟩ (encStack B L dims ++ h0) =
        .ok (⟨B, dims.headD 0, L⟩, ⟨B, dims.headD 0, L⟩ :: h0) := by
  intro dims
  induction dims with
  | nil => intro a B L idx total h0 hne; exact absurd rfl hne
  | cons d1 rest ih =>
    intro a B L idx total h0 _ hdvd hdiv hL hidx
    cases rest with
    | nil =>
      simp [upPairs_singleton, decodeLoop, encStack, ceilHalfIter, List.getLastD]
    | cons d2 rest2 =>
      have h2L : (2 : Nat) ∣ L := by
        refine dvd_trans ?_ hdiv
        have : (d1 :: d2 :: rest2).length - 1 = rest2.length + 1 := by simp
        rw [this, pow_succ]
        exact dvd_mul_left 2 (2 ^ rest2.length)
      obtain ⟨t, ht⟩ := hdiv
      have hlen : (d1 :: d2 :: rest2).length - 1 = rest2.length + 1 := by simp
      have hKdef : L = 2 * (2 ^ rest2.length * t) := by
        rw [ht, hlen, pow_succ]; ring
      have hhalf : (L + 1) / 2 = 2 ^ rest2.length * t := by omega
      have hdvd2 : 2 ^ ((d2 :: rest2).length - 1) ∣ (L + 1) / 2 := by
        rw [hhalf, show (d2 :: rest2).length - 1 = rest2.length by simp]
        exact Dvd.intro t rfl
      have hL2 : 1 ≤ (L + 1) / 2 := by omega
      have hrec := ih d1 B ((L + 1) / 2) idx total (⟨B, d1, L⟩ :: h0) (by simp)
        (fun x hx => hdvd x (List.mem_cons_of_mem d1 hx)) hdvd2 hL2
        (by simp at hidx ⊢; omega)
      rw [upPairs_cons_cons, List.map_append, decodeLoop_append]
      have hxin : (⟨B, (d1 :: d2 :: rest2).getLastD 0,
          ceilHalfIter ((d1 :: d2 :: rest2).length - 1) L⟩ : Shape3) =
          ⟨B, (d2 :: rest2).getLastD 0, ceilHalfIter ((d2 :: rest2).length - 1) ((L + 1) / 2)⟩ := by
        rw [getLastD_cons_eq, getLastD_irrel _ (by simp) d1 0, hlen]
        simp [ceilHalfIter]
      have hstack : encStack B L (d1 :: d2 :: rest2) ++ h0 =
          encStack B ((L + 1) / 2) (d2 :: rest2) ++ (⟨B, d1, L⟩ :: h0) := by
        show (encStack B ((L + 1) / 2) (d2 :: rest2) ++ [⟨B, d1, L⟩]) ++ h0 = _
        simp
      rw [hxin, hstack, hrec, except_bind_ok]
      have hlens : ((upPairs d1 (d2 :: rest2)).map upStageOf).length = rest2.length := by
        simp [upPairs_length]
      rw [hlens]
      have hne2 : idx + rest2.length ≠ total := by
        simp at hidx; omega
      have hstep := decodeStep_ok c total hlocal (idx + rest2.length) d1 d2 B ((L + 1) / 2)
        (⟨B, d1, L⟩ :: h0) hk hg (hdvd d1 (by simp)) hL2 hne2
      have h2half : 2 * ((L + 1) / 2) = L := by omega
      simp only [List.headD_cons]
      simp only [decodeLoop, hstep, except_bind_ok]
      simp [h2half]

theorem decode_chain_len (c : UnetCfg) (hlocal : List Shape3)
    (hk : c.kernel % 2 = 1) (hg : c.n_groups ≠ 0) :
    ∀ (dims : List Nat) (a B L idx total : Nat) (h0 : List Shape3) (s : Shape3)
      (h2 : List Shape3),
      dims ≠ [] →
      (∀ d ∈ dims, d % c.n_groups = 0) →
      1 ≤ L →
      idx + (dims.length - 1) ≤ total →
      decodeLoop c total hlocal ⟨B, condDim c⟩ idx ((upPairs a dims).map upStageOf)
          ⟨B, dims.getLastD 0, ceilHalfIter (dims.length - 1) L⟩ (encStack B L dims ++ h0) =
        .ok (s, h2) →
      s = ⟨B, dims.headD 0, 2 ^ (dims.length - 1) * ceilHalfIter (dims.length - 1) L⟩ ∧
        h2 = ⟨B, dims.headD 0, L⟩ :: h0 := by
  intro dims
  induction dims with
  | nil => intro a B L idx total h0 s h2 hne; exact absurd rfl hne
  | cons d1 rest ih =>
    intro a B L idx total h0 s h2 _ hdvd hL hidx hdec
    cases rest with
    | nil =>
      simp [upPairs_singleton, decodeLoop, encStack, ceilHalfIter, List.getLastD] at hdec
      simp [ceilHalfIter, List.headD_cons, hdec.1.symm, hdec.2.symm, encStack]
    | cons d2 rest2 =>
      have hlen : (d1 :: d2 :: rest2).length - 1 = rest2.length + 1 := by simp
      have hL2 : 1 ≤ (L + 1) / 2 := by omega
      have hxin : (⟨B, (d1 :: d2 :: rest2).getLastD 0,
          ceilHalfIter ((d1 :: d2 :: rest2).length - 1) L⟩ : Shape3) =
          ⟨B, (d2 :: rest2).getLastD 0, ceilHalfIter ((d2 :: rest2).length - 1) ((L + 1) / 2)⟩ := by
        rw [getLastD_cons_eq, getLastD_irrel _ (by simp) d1 0, hlen]
        simp [ceilHalfIter]
      have hstack : encStack B L (d1 :: d2 :: rest2) ++ h0 =
          encStack B ((L + 1) / 2) (d2 :: rest2) ++ (⟨B, d1, L⟩ :: h0) := by
        show (encStack B ((L + 1) / 2) (d2 :: rest2) ++ [⟨B, d1, L⟩]) ++ h0 = _
        simp
      rw [upPairs_cons_cons, List.map_append, decodeLoop_append, hxin, hstack] at hdec
      cases hfst : decodeLoop c total hlocal ⟨B, condDim c⟩ idx
          ((upPairs d1 (d2 :: rest2)).map upStageOf)
          ⟨B, (d2 :: rest2).getLastD 0, ceilHalfIter ((d2 :: rest2).length - 1) ((L + 1) / 2)⟩
          (encStack B ((L + 1) / 2) (d2 :: rest2) ++ (⟨B, d1, L⟩ :: h0)) with
      | error e =>
        rw [hfst, except_bind_error] at hdec
        cases hdec
      | ok r =>
        obtain ⟨r1, r2⟩ := r
        rw [hfst, except_bind_ok] at hdec
        obtain ⟨hr1, hr2⟩ := ih d1 B ((L + 1) / 2) idx total (⟨B, d1, L⟩ :: h0) r1 r2
          (by simp) (fun x hx => hdvd x (List.mem_cons_of_mem d1 hx)) hL2
          (by simp at hidx ⊢; omega) hfst
        subst hr1
        subst hr2
        simp only [List.length_map, upPairs_length, List.headD_cons] at hdec
        have hlen2 : (d2 :: rest2).length - 1 = rest2.length := by simp
        rw [hlen2] at hdec
        by_cases hXc : 2 ^ rest2.length * ceilHalfIter rest2.length ((L + 1) / 2) = (L + 1) / 2
        · rw [hXc] at hdec
          have hne2 : idx + rest2.length ≠ total := by
            simp at hidx; omega
          have hstep := decodeStep_ok c total hlocal (idx + rest2.length) d1 d2 B ((L + 1) / 2)
            (⟨B, d1, L⟩ :: h0) hk hg (hdvd d1 (by simp)) hL2 hne2
          simp only [decodeLoop, hstep, except_bind_ok] at hdec
          simp only [Except.ok.injEq, Prod.mk.injEq] at hdec
          obtain ⟨hs, hh⟩ := hdec
          have hcl : ceilHalfIter (rest2.length + 1) L = ceilHalfIter rest2.length ((L + 1) / 2) := by
            simp [ceilHalfIter]
          have harm : 2 ^ (rest2.length + 1) * ceilHalfIter (rest2.length + 1) L
              = 2 * ((L + 1) / 2) := by
            rw [hcl]
            calc 2 ^ (rest2.length + 1) * ceilHalfIter rest2.length ((L + 1) / 2)
                = 2 * (2 ^ rest2.length * ceilHalfIter rest2.length ((L + 1) / 2)) := by ring
              _ = 2 * ((L + 1) / 2) := by rw [hXc]
          constructor
          · rw [← hs]
            simp only [List.headD_cons, hlen, harm]
          · rw [← hh]
            simp [List.headD_cons]
        · have hcat : catShape
              ⟨B, d2, 2 ^ rest2.length * ceilHalfIter rest2.length ((L + 1) / 2)⟩
              ⟨B, d2, (L + 1) / 2⟩ = .error .shapeMismatch := by
            simp [catShape, hXc]
          simp only [decodeLoop, decodeStep, hcat, except_bind_error] at hdec
          cases hdec

/- ------------------------------------------------------------------ -/
/- Helper lemmas: the full forward pass. -/

theorem expandTo_len (B : Nat) (v w : List ℚ) (h : expandTo B v = .ok w) : w.length = B := by
  unfold expandTo at h
  split_ifs at h with h1 h2
  · simp only [Except.ok.injEq] at h
    subst h
    exact h1
  · simp only [Except.ok.injEq] at h
    subst h
    simp

theorem normalizeTimesteps_len (B : Nat) (t : TimestepIn) (v : List ℚ)
    (h : normalizeTimesteps B t = .ok v) : v.length = B := by
  cases t with
  | num q => exact expandTo_len B _ v h
  | zeroDim q => exact expandTo_len B _ v h
  | vec w => exact expandTo_len B w v h

theorem diffusionStepEncoderShape_ok (c : UnetCfg) (n : Nat) :
    diffusionStepEncoderShape c n = .ok ⟨n, c.dsed⟩ := by
  simp [diffusionStepEncoderShape, linearShape, sinusoidalPosEmbShape, Bind.bind, Except.bind]

theorem allDims_getLastD (a : Nat) (dims : List Nat) (hne : dims ≠ []) :
    (allDims a dims).getLastD 0 = dims.getLastD 0 := by
  unfold allDims
  rw [getLastD_cons_eq]
  exact getLastD_irrel dims hne a 0

theorem headD_mem {α : Type} (l : List α) (hne : l ≠ []) (d : α) : l.headD d ∈ l := by
  cases l with
  | nil => exact absurd rfl hne
  | cons x t => simp

theorem forwardShape_ok (c : UnetCfg) (B H : Nat) (ts : TimestepIn) (tsv : List ℚ)
    (lc : Option Shape3) (gc : Option Shape2) (ret : Option Shape2)
    (hdims : c.down_dims ≠ [])
    (hk : c.kernel % 2 = 1) (hg : c.n_groups ≠ 0)
    (hdvd : ∀ d ∈ c.down_dims, d % c.n_groups = 0)
    (hts : normalizeTimesteps B ts = .ok tsv)
    (hret : c.returns_condition = false)
    (hglob : (gc = none ∧ c.global_cond_dim = none) ∨
      (∃ gd, c.global_cond_dim = some gd ∧ gc = some ⟨B, gd⟩))
    (hloc : lc = none ∨ (∃ lcd, c.local_cond_dim = some lcd ∧ lc = some ⟨B, H, lcd⟩))
    (hdiv : 2 ^ (c.down_dims.length - 1) ∣ H) (hH : 1 ≤ H) :
    forwardShape c ⟨B, H, c.input_dim⟩ ts lc gc ret = .ok ⟨B, H, c.input_dim⟩ := by
  have htl : tsv.length = B := normalizeTimesteps_len B ts tsv hts
  have hgf : globalCatShape ⟨B, c.dsed⟩ gc = .ok ⟨B, condDim c⟩ := by
    rcases hglob with ⟨hgc, hgd⟩ | ⟨gd, hgd, hgc⟩
    · subst hgc
      simp [globalCatShape, condDim, hgd]
    · subst hgc
      simp [globalCatShape, catShape2, condDim, hgd]
  have hretb : returnsBranchShape c ret = .ok () := by simp [returnsBranchShape, hret]
  have hd1mem : c.down_dims.headD 0 ∈ c.down_dims := headD_mem _ hdims 0
  obtain ⟨hl, hle, hlh⟩ : ∃ hl, localEncoderShape c ⟨B, condDim c⟩ lc = .ok hl ∧
      ((0 = 0 ∧ 0 < hl.length) → hl.headD ⟨0, 0, 0⟩ = ⟨B, c.down_dims.headD 0, H⟩) := by
    rcases hloc with hlc | ⟨lcd, hlcd, hlc⟩
    · exact ⟨[], by simp [hlc, localEncoderShape], by simp⟩
    · refine ⟨[⟨B, c.down_dims.headD 0, H⟩, ⟨B, c.down_dims.headD 0, H⟩], ?_, by simp⟩
      have hcrbl : crbShape (crbP c lcd (c.down_dims.headD 0)) ⟨B, lcd, H⟩ ⟨B, condDim c⟩ =
          .ok ⟨B, c.down_dims.headD 0, H⟩ :=
        crbShape_ok (crbP c lcd (c.down_dims.headD 0)) B H hk hg (hdvd _ hd1mem) hH
      subst hlc
      simp only [localEncoderShape, hlcd]
      rw [hcrbl, except_bind_ok, except_bind_ok]
  have hence := encode_chain_ok c hl hk hg c.down_dims c.input_dim B H 0 [] hdims hdvd hH hlh
  have hmid : (allDims c.input_dim c.down_dims).getLastD 0 = c.down_dims.getLastD 0 :=
    allDims_getLastD c.input_dim c.down_dims hdims
  have hM1 : 1 ≤ ceilHalfIter (c.down_dims.length - 1) H := ceilHalfIter_pos _ H hH
  have hcrbm : crbShape (crbP c (c.down_dims.getLastD 0) (c.down_dims.getLastD 0))
      ⟨B, c.down_dims.getLastD 0, ceilHalfIter (c.down_dims.length - 1) H⟩ ⟨B, condDim c⟩ =
      .ok ⟨B, c.down_dims.getLastD 0, ceilHalfIter (c.down_dims.length - 1) H⟩ :=
    crbShape_ok _ B _ hk hg (hdvd _ (getLastD_mem _ hdims 0)) hM1
  have hups : mkUpStages (inOut c.input_dim c.down_dims) =
      (upPairs c.input_dim c.down_dims).map upStageOf :=
    mkUpStages_eq_map c.input_dim c.down_dims hdims
  have htot : ((upPairs c.input_dim c.down_dims).map upStageOf).length =
      c.down_dims.length - 1 := by
    simp [upPairs_length]
  have hdec := decode_chain_ok c hl hk hg c.down_dims c.input_dim B H 0
    (c.down_dims.length - 1) [] hdims hdvd hdiv hH (by omega)
  have hf1 := conv1dBlockShape_ok (c.down_dims.headD 0) (c.down_dims.headD 0) c.kernel
    c.n_groups B H hk hg (hdvd _ hd1mem) hH
  have hf2 : conv1dShape (c.down_dims.headD 0) c.input_dim 1 1 0
      ⟨B, c.down_dims.headD 0, H⟩ = .ok ⟨B, c.input_dim, H⟩ := by
    have ha : ¬ (H + 2 * 0 < 1) := by omega
    have hb : H - 1 + 1 = H := by omega
    simp [conv1dShape, ha, hb, show H ≠ 0 by omega]
  unfold forwardShape
  simp only [hts, except_bind_ok, htl, diffusionStepEncoderShape_ok, hgf, hretb, hle,
    mkDownStages_eq_chain c.input_dim c.down_dims, hence, hmid, hups, htot, hcrbm,
    hdec, hf1, hf2]

theorem forwardShape_succ (c : UnetCfg) (B H : Nat) (ts : TimestepIn) (tsv : List ℚ)
    (lc : Option Shape3) (gc : Option Shape2) (ret : Option Shape2) (y : Shape3)
    (hdims : c.down_dims ≠ [])
    (hk : c.kernel % 2 = 1) (hg : c.n_groups ≠ 0)
    (hdvd : ∀ d ∈ c.down_dims, d % c.n_groups = 0)
    (hts : normalizeTimesteps B ts = .ok tsv)
    (hret : c.returns_condition = false)
    (hglob : (gc = none ∧ c.global_cond_dim = none) ∨
      (∃ gd, c.global_cond_dim = some gd ∧ gc = some ⟨B, gd⟩))
    (hloc : lc = none ∨ (∃ lcd, c.local_cond_dim = some lcd ∧ lc = some ⟨B, H, lcd⟩))
    (hH : 1 ≤ H)
    (hfw : forwardShape c ⟨B, H, c.input_dim⟩ ts lc gc ret = .ok y) :
    y = ⟨B, 2 ^ (c.down_dims.length - 1) * ceilHalfIter (c.down_dims.length - 1) H,
      c.input_dim⟩ := by
  have htl : tsv.length = B := normalizeTimesteps_len B ts tsv hts
  have hgf : globalCatShape ⟨B, c.dsed⟩ gc = .ok ⟨B, condDim c⟩ := by
    rcases hglob with ⟨hgc, hgd⟩ | ⟨gd, hgd, hgc⟩
    · subst hgc
      simp [globalCatShape, condDim, hgd]
    · subst hgc
      simp [globalCatShape, catShape2, condDim, hgd]
  have hretb : returnsBranchShape c ret = .ok () := by simp [returnsBranchShape, hret]
  have hd1mem : c.down_dims.headD 0 ∈ c.down_dims := headD_mem _ hdims 0
  obtain ⟨hl, hle, hlh⟩ : ∃ hl, localEncoderShape c ⟨B, condDim c⟩ lc = .ok hl ∧
      ((0 = 0 ∧ 0 < hl.length) → hl.headD ⟨0, 0, 0⟩ = ⟨B, c.down_dims.headD 0, H⟩) := by
    rcases hloc with hlc | ⟨lcd, hlcd, hlc⟩
    · exact ⟨[], by simp [hlc, localEncoderShape], by simp⟩
    · refine ⟨[⟨B, c.down_dims.headD 0, H⟩, ⟨B, c.down_dims.headD 0, H⟩], ?_, by simp⟩
      have hcrbl : crbShape (crbP c lcd (c.down_dims.headD 0)) ⟨B, lcd, H⟩ ⟨B, condDim c⟩ =
          .ok ⟨B, c.down_dims.headD 0, H⟩ :=
        crbShape_ok (crbP c lcd (c.down_dims.headD 0)) B H hk hg (hdvd _ hd1mem) hH
      subst hlc
      simp only [localEncoderShape, hlcd]
      rw [hcrbl, except_bind_ok, except_bind_ok]
  have hence := encode_chain_ok c hl hk hg c.down_dims c.input_dim B H 0 [] hdims hdvd hH hlh
  have hmid : (allDims c.input_dim c.down_dims).getLastD 0 = c.down_dims.getLastD 0 :=
    allDims_getLastD c.input_dim c.down_dims hdims
  have hM1 : 1 ≤ ceilHalfIter (c.down_dims.length - 1) H := ceilHalfIter_pos _ H hH
  have hcrbm : crbShape (crbP c (c.down_dims.getLastD 0) (c.down_dims.getLastD 0))
      ⟨B, c.down_dims.getLastD 0, ceilHalfIter (c.down_dims.length - 1) H⟩ ⟨B, condDim c⟩ =
      .ok ⟨B, c.down_dims.getLastD 0, ceilHalfIter (c.down_dims.length - 1) H⟩ :=
    crbShape_ok _ B _ hk hg (hdvd _ (getLastD_mem _ hdims 0)) hM1
  have hups : mkUpStages (inOut c.input_dim c.down_dims) =
      (upPairs c.input_dim c.down_dims).map upStageOf :=
    mkUpStages_eq_map c.input_dim c.down_dims hdims
  have htot : ((upPairs c.input_dim c.down_dims).map upStageOf).length =
      c.down_dims.length - 1 := by
    simp [upPairs_length]
  unfold forwardShape at hfw
  simp only [hts, except_bind_ok, htl, diffusionStepEncoderShape_ok, hgf, hretb, hle,
    mkDownStages_eq_chain c.input_dim c.down_dims, hence, hmid, hups, htot, hcrbm] at hfw
  cases hdl : decodeLoop c (c.down_dims.length - 1) hl ⟨B, condDim c⟩ 0
      ((upPairs c.input_dim c.down_dims).map upStageOf)
      ⟨B, c.down_dims.getLastD 0, ceilHalfIter (c.down_dims.length - 1) H⟩
      (encStack B H c.down_dims ++ []) with
  | error e =>
    rw [hdl, except_bind_error] at hfw
    cases hfw
  | ok r =>
    obtain ⟨r1, r2⟩ := r
    rw [hdl, except_bind_ok] at hfw
    obtain ⟨hr1, hr2⟩ := decode_chain_len c hl hk hg c.down_dims c.input_dim B H 0
      (c.down_dims.length - 1) [] r1 r2 hdims hdvd hH (by omega) hdl
    subst hr1
    have hX1 : 1 ≤ 2 ^ (c.down_dims.length - 1) * ceilHalfIter (c.down_dims.length - 1) H := by
      have h2p : 1 ≤ 2 ^ (c.down_dims.length - 1) := Nat.one_le_two_pow
      exact Nat.mul_le_mul h2p hM1
  -- wait: need 1 * 1 ≤ product
    have hf1 := conv1dBlockShape_ok (c.down_dims.headD 0) (c.down_dims.headD 0) c.kernel
      c.n_groups B (2 ^ (c.down_dims.length - 1) * ceilHalfIter (c.down_dims.length - 1) H)
      hk hg (hdvd _ hd1mem) hX1
    have hf2 : conv1dShape (c.down_dims.headD 0) c.input_dim 1 1 0
        ⟨B, c.down_dims.headD 0,
          2 ^ (c.down_dims.length - 1) * ceilHalfIter (c.down_dims.length - 1) H⟩ =
        .ok ⟨B, c.input_dim,
          2 ^ (c.down_dims.length - 1) * ceilHalfIter (c.down_dims.length - 1) H⟩ := by
      have ha : ¬ (2 ^ (c.down_dims.length - 1) * ceilHalfIter (c.down_dims.length - 1) H
          + 2 * 0 < 1) := by omega
      have hb : 2 ^ (c.down_dims.length - 1) * ceilHalfIter (c.down_dims.length - 1) H - 1 + 1
          = 2 ^ (c.down_dims.length - 1) * ceilHalfIter (c.down_dims.length - 1) H := by omega
      simp [conv1dShape, ha, hb,
        show 2 ^ (c.down_dims.length - 1) * ceilHalfIter (c.down_dims.length - 1) H ≠ 0
          by omega]
    rw [hf1, except_bind_ok, hf2, except_bind_ok] at hfw
    simp only [Except.ok.injEq] at hfw
    rw [← hfw]

/- ------------------------------------------------------------------ -/
/- Helper lemmas: skip-stack structure and expand/normalize. -/

theorem encStack_length (B : Nat) : ∀ (dims : List Nat) (L : Nat),
    (encStack B L dims).length = dims.length := by
  intro dims
  induction dims with
  | nil => intro L; rfl
  | cons d rest ih => intro L; simp [encStack, ih]

theorem encStack_getLastD (B : Nat) : ∀ (dims : List Nat) (L : Nat), dims ≠ [] →
    (encStack B L dims).getLastD ⟨0, 0, 0⟩ = ⟨B, dims.headD 0, L⟩ := by
  intro dims
  cases dims with
  | nil => intro L h; exact absurd rfl h
  | cons d rest =>
    intro L _
    show (encStack B ((L + 1) / 2) rest ++ [(⟨B, d, L⟩ : Shape3)]).getLastD
      (⟨0, 0, 0⟩ : Shape3) = ⟨B, d, L⟩
    simp [List.getLastD_concat]

theorem expandTo_singleton (B : Nat) (q : ℚ) :
    expandTo B [q] = .ok (List.replicate B q) := by
  unfold expandTo
  rcases eq_or_ne B 1 with h | h
  · subst h
    simp
  · rw [if_neg (by simpa using Ne.symm h), if_pos (by simp)]
    simp

theorem truncToLong_intCast (z : ℤ) : truncToLong (z : ℚ) = z := by
  unfold truncToLong
  rw [Rat.num_intCast, Rat.den_intCast]
  exact Int.tdiv_one z

/- ------------------------------------------------------------------ -/
/- Helper lemmas: the value semantics. -/

theorem dotQ_zero (n : Nat) : ∀ (v : Tens1), dotQ (List.replicate n 0) v = 0 := by
  induction n with
  | zero => intro v; rfl
  | succ m ih =>
    intro v
    cases v with
    | nil => rfl
    | cons q t =>
      have := ih t
      simp only [dotQ] at this ⊢
      simp [List.replicate_succ, this]

theorem zipReplicate {α β : Type} (a : α) (b : β) : ∀ (n : Nat),
    (List.replicate n a).zip (List.replicate n b) = List.replicate n (a, b) := by
  intro n
  induction n with
  | zero => rfl
  | succ m ih => simp [List.replicate_succ, ih]

theorem linearVal_zero (rows cols : Nat) (v : Tens1) :
    linearVal (zeroMatQ rows cols) (List.replicate rows 0) v = List.replicate rows 0 := by
  unfold linearVal zeroMatQ
  rw [zipReplicate, List.map_replicate]
  simp [dotQ_zero]

theorem condEncoderVal_zero (act : ℚ → ℚ) (cc cd : Nat) (cond : Tens1) :
    condEncoderVal act (zeroMatQ cc cd) (List.replicate cc 0) cond = List.replicate cc 0 := by
  unfold condEncoderVal
  exact linearVal_zero cc cd (cond.map act)

theorem zipWith_replicate_length {α β γ : Type} (f : α → β → γ) (a : α) :
    ∀ (l : List β), List.zipWith f (List.replicate l.length a) l = l.map (f a) := by
  intro l
  induction l with
  | nil => rfl
  | cons x t ih => simp [List.replicate_succ, ih]

theorem applyScaleBias_zero (cout : Nat) (chs : List Tens1) (hlen : chs.length = cout) :
    applyScaleBias (List.replicate cout 0) (List.replicate cout 0) chs =
      chs.map (fun ch => ch.map (fun _ => 0)) := by
  unfold applyScaleBias
  rw [zipReplicate, ← hlen, zipWith_replicate_length]
  simp

/- ------------------------------------------------------------------ -/
/- Helper lemmas: the generic value-level loops. -/

theorem decodeValAux_hl1_irrel {V : Type} (cat add : V → V → V) (total : Nat)
    (a b b2 : V) :
    ∀ (mods : List ((V → V) × (V → V) × (V → V))) (idx : Nat) (x : V) (h : List V),
      idx + mods.length ≤ total →
      decodeValAux cat add total [a, b] idx mods x h =
        decodeValAux cat add total [a, b2] idx mods x h := by
  intro mods
  induction mods with
  | nil => intro idx x h _; rfl
  | cons m rest ih =>
    intro idx x h hidx
    cases h with
    | nil => rfl
    | cons top hrest =>
      have hne : idx ≠ total := by simp at hidx; omega
      have hg1 : ¬ (idx = total ∧ 0 < ([a, b] : List V).length) := fun hc => hne hc.1
      have hg2 : ¬ (idx = total ∧ 0 < ([a, b2] : List V).length) := fun hc => hne hc.1
      simp only [decodeValAux, if_neg hg1, if_neg hg2]
      refine ih (idx + 1) _ hrest ?_
      simp at hidx
      omega

theorem encodeValAux_add_irrel {V : Type} (add add2 : V → V → V) :
    ∀ (mods : List ((V → V) × (V → V) × (V → V))) (idx : Nat) (x : V) (h : List V),
      encodeValAux add [] idx mods x h = encodeValAux add2 [] idx mods x h := by
  intro mods
  induction mods with
  | nil => intro idx x h; rfl
  | cons m rest ih =>
    intro idx x h
    have hguard : ¬ (idx = 0 ∧ 0 < ([] : List V).length) := by simp
    simp only [encodeValAux, if_neg hguard]
    exact ih (idx + 1) _ _

theorem decodeValAux_add_irrel {V : Type} (cat add add2 : V → V → V) (total : Nat) :
    ∀ (mods : List ((V → V) × (V → V) × (V → V))) (idx : Nat) (x : V) (h : List V),
      decodeValAux cat add total [] idx mods x h =
        decodeValAux cat add2 total [] idx mods x h := by
  intro mods
  induction mods with
  | nil => intro idx x h; rfl
  | cons m rest ih =>
    intro idx x h
    cases h with
    | nil => rfl
    | cons top hrest =>
      have hguard : ¬ (idx = total ∧ 0 < ([] : List V).length) := by simp
      simp only [decodeValAux, if_neg hguard]
      exact ih (idx + 1) _ hrest

/- ------------------------------------------------------------------ -/
/- Claim theorems. -/

/-- C1 (amended): skip-stack discipline of `ConditionalUnet1D.forward`. The number of
down-sampling stages is one MORE than the number of up-sampling stages; the encoder
pushes one entry per stage (stack depth = number of down stages); the decoder pops in
LIFO order (each pop takes the most recent unpopped push, never from an empty stack)
and, contrary to the original claim, exactly one pushed entry — the first push, at
full resolution — is left on the stack after the decoder loop. -/
theorem C1_skip_stack_amended (c : UnetCfg) (hl : List Shape3) (B H : Nat)
    (hdims : c.down_dims ≠ []) (hk : c.kernel % 2 = 1) (hg : c.n_groups ≠ 0)
    (hdvd : ∀ d ∈ c.down_dims, d % c.n_groups = 0)
    (hlh : hl = [] ∨ hl.headD ⟨0, 0, 0⟩ = ⟨B, c.down_dims.headD 0, H⟩)
    (hdiv : 2 ^ (c.down_dims.length - 1) ∣ H) (hH : 1 ≤ H) :
    (mkDownStages (inOut c.input_dim c.down_dims)).length =
      (mkUpStages (inOut c.input_dim c.down_dims)).length + 1 ∧
    encodeLoop c hl ⟨B, condDim c⟩ 0 (mkDownStages (inOut c.input_dim c.down_dims))
        ⟨B, c.input_dim, H⟩ [] =
      .ok (⟨B, c.down_dims.getLastD 0, ceilHalfIter (c.down_dims.length - 1) H⟩,
        encStack B H c.down_dims) ∧
    (encStack B H c.down_dims).length =
      (mkDownStages (inOut c.input_dim c.down_dims)).length ∧
    decodeLoop c (mkUpStages (inOut c.input_dim c.down_dims)).length hl ⟨B, condDim c⟩ 0
        (mkUpStages (inOut c.input_dim c.down_dims))
        ⟨B, c.down_dims.getLastD 0, ceilHalfIter (c.down_dims.length - 1) H⟩
        (encStack B H c.down_dims) =
      .ok (⟨B, c.down_dims.headD 0, H⟩, [⟨B, c.down_dims.headD 0, H⟩]) ∧
    (encStack B H c.down_dims).getLastD ⟨0, 0, 0⟩ = ⟨B, c.down_dims.headD 0, H⟩ := by
  have hchain := mkDownStages_eq_chain c.input_dim c.down_dims
  have hups := mkUpStages_eq_map c.input_dim c.down_dims hdims
  have hlend : (mkDownStages (inOut c.input_dim c.down_dims)).length = c.down_dims.length := by
    rw [hchain, chainDown_length]
  have hlenu : (mkUpStages (inOut c.input_dim c.down_dims)).length =
      c.down_dims.length - 1 := by
    rw [hups]
    simp [upPairs_length]
  have hnpos : 0 < c.down_dims.length := List.length_pos.mpr hdims
  have hinj : (0 = 0 ∧ 0 < hl.length) → hl.headD ⟨0, 0, 0⟩ = ⟨B, c.down_dims.headD 0, H⟩ := by
    intro hc
    rcases hlh with h | h
    · subst h
      simp at hc
    · exact h
  refine ⟨by rw [hlend, hlenu]; omega, ?_, ?_, ?_, encStack_getLastD B c.down_dims H hdims⟩
  · rw [hchain]
    have he := encode_chain_ok c hl hk hg c.down_dims c.input_dim B H 0 [] hdims hdvd hH hinj
    rw [List.append_nil] at he
    exact he
  · rw [encStack_length, hlend]
  · rw [hlenu, hups]
    have hd := decode_chain_ok c hl hk hg c.down_dims c.input_dim B H 0
      (c.down_dims.length - 1) [] hdims hdvd hdiv hH (by omega)
    rw [List.append_nil] at hd
    exact hd

/-- C1 counterexample: with `down_dims = [32, 64]` the encoder has 2 stages but the
decoder only 1 — the stage counts are NOT equal — and running the decoder loop on the
encoder's 2-entry skip stack leaves one entry behind, refuting "no entry left over". -/
theorem C1_skip_stack_cex :
    (mkDownStages (inOut 7 [32, 64])).length ≠ (mkUpStages (inOut 7 [32, 64])).length ∧
    decodeLoop cfgW2 1 [] ⟨1, 256⟩ 0 (mkUpStages (inOut 7 [32, 64])) ⟨1, 64, 2⟩
      [⟨1, 64, 2⟩, ⟨1, 32, 4⟩] = .ok (⟨1, 32, 4⟩, [⟨1, 32, 4⟩]) ∧
    ([(⟨1, 32, 4⟩ : Shape3)] : List Shape3) ≠ [] := by
  decide

/-- C1 witness: the amended theorem applied to the concrete two-stage configuration. -/
theorem C1_skip_stack_witness :
    encodeLoop cfgW2 [] ⟨1, condDim cfgW2⟩ 0
        (mkDownStages (inOut cfgW2.input_dim cfgW2.down_dims)) ⟨1, cfgW2.input_dim, 4⟩ [] =
      .ok (⟨1, cfgW2.down_dims.getLastD 0, ceilHalfIter (cfgW2.down_dims.length - 1) 4⟩,
        encStack 1 4 cfgW2.down_dims) :=
  (C1_skip_stack_amended cfgW2 [] 1 4 (by decide) (by decide) (by decide) (by decide)
    (Or.inl rfl) (by decide) (by decide)).2.1

/-- C2: in the decoder loop of `ConditionalUnet1D.forward` with `local_cond` supplied
(`h_local = [h0, h1]`), the injection guarded by `idx == len(self.up_modules)` can
never fire (the zero-based index never reaches the module count), so the loop's
result is independent of `h_local[1]`: the decoder-side injection is a no-op. -/
theorem C2_decoder_injection_dead {V : Type} (cat add : V → V → V)
    (mods : List ((V → V) × (V → V) × (V → V))) (hl0 hl1 hl1' : V) (x : V) (h : List V) :
    decodeVal cat add mods [hl0, hl1] x h = decodeVal cat add mods [hl0, hl1'] x h := by
  unfold decodeVal
  exact decodeValAux_hl1_irrel cat add mods.length hl0 hl1 hl1' mods 0 x h (by omega)

/-- C3 (amended): the deepest encoder stage's resampling operator is the identity and
all earlier encoder stages are strided `Downsample1d`s mapping length L to ⌈L/2⌉;
but — contrary to the original claim — the final decoder stage is NOT the identity:
every decoder stage carries an `Upsample1d` doubling the length (the up-loop's
`is_last` test compares against `len(in_out) - 1` and never fires), and the decoder
has one stage fewer than the encoder. -/
theorem C3_resample_amended (a : Nat) (dims : List Nat) (hne : dims ≠ []) :
    ((mkDownStages (inOut a dims)).getLastD ⟨0, 0, .downsample⟩).resample = .identity ∧
    (∀ s ∈ (mkDownStages (inOut a dims)).dropLast, s.resample = .downsample) ∧
    (∀ s ∈ mkUpStages (inOut a dims), s.resample = .upsample) ∧
    (mkDownStages (inOut a dims)).length = dims.length ∧
    (mkUpStages (inOut a dims)).length = dims.length - 1 ∧
    (∀ dim B L, 1 ≤ L → downsample1dShape dim ⟨B, dim, L⟩ = .ok ⟨B, dim, (L + 1) / 2⟩) ∧
    (∀ dim B L, 1 ≤ L → upsample1dShape dim ⟨B, dim, L⟩ = .ok ⟨B, dim, 2 * L⟩) := by
  have hchain := mkDownStages_eq_chain a dims
  have hups := mkUpStages_eq_map a dims hne
  obtain ⟨h1, h2⟩ := chainDown_resample dims a hne
  refine ⟨?_, ?_, ?_, ?_, ?_, ?_, ?_⟩
  · rw [hchain]
    exact h1
  · rw [hchain]
    exact h2
  · intro s hs
    rw [hups] at hs
    obtain ⟨p, _, rfl⟩ := List.mem_map.mp hs
    rfl
  · rw [hchain, chainDown_length]
  · rw [hups]
    simp [upPairs_length]
  · exact fun dim B L hL => downsample1dShape_ok dim B L hL
  · exact fun dim B L hL => upsample1dShape_ok dim B L hL

/-- C3 counterexample: with the default `down_dims = [256, 512, 1024]`, the final
decoder stage's resampling operator is `Upsample1d`, not the claimed identity. -/
theorem C3_resample_cex :
    ((mkUpStages (inOut 7 [256, 512, 1024])).getLastD ⟨0, 0, .identity⟩).resample =
      .upsample ∧ Resample.upsample ≠ Resample.identity := by
  decide

/-- C3 witness: the amended theorem applied to the default stage widths. -/
theorem C3_resample_witness :
    ((mkDownStages (inOut 7 [256, 512, 1024])).getLastD ⟨0, 0, .downsample⟩).resample =
      Resample.identity :=
  (C3_resample_amended 7 [256, 512, 1024] (by decide)).1

/-- C4 (amended): for every INTEGER timestep value, passing it as a plain number, as
a zero-dimensional tensor, or as a per-batch vector of that value all normalize to
the same per-batch vector (hence bit-identical embeddings); the plain-number form is
first cast to int64, so for non-integral values it truncates toward zero and the
three forms disagree. -/
theorem C4_timestep_normalization_amended (B : Nat) (q : ℚ) (z : ℤ) (hz : q = (z : ℚ)) :
    normalizeTimesteps B (.num q) = .ok (List.replicate B q) ∧
    normalizeTimesteps B (.zeroDim q) = .ok (List.replicate B q) ∧
    normalizeTimesteps B (.vec (List.replicate B q)) = .ok (List.replicate B q) := by
  refine ⟨?_, expandTo_singleton B q, ?_⟩
  · show expandTo B [((truncToLong q : ℤ) : ℚ)] = .ok (List.replicate B q)
    rw [hz, truncToLong_intCast]
    exact expandTo_singleton B _
  · show expandTo B (List.replicate B q) = .ok (List.replicate B q)
    unfold expandTo
    simp

/-- C4 counterexample: at timestep value 5/2, the plain-number form is truncated to 2
by the int64 cast while the zero-dimensional form keeps 5/2, so the normalized
vectors (and hence the embeddings) differ. -/
theorem C4_timestep_normalization_cex :
    normalizeTimesteps 1 (.num (mkRat 5 2)) ≠ normalizeTimesteps 1 (.zeroDim (mkRat 5 2)) := by
  decide

/-- C4 witness: the amended theorem at integer timestep 7 and batch size 2. -/
theorem C4_timestep_normalization_witness :
    normalizeTimesteps 2 (.num 7) = .ok (List.replicate 2 (7 : ℚ)) :=
  (C4_timestep_normalization_amended 2 7 7 (by norm_num)).1

/-- C5: the `returns_condition` path of `forward` cannot succeed: `__init__` never
assigns `self.returns_mlp` (nor `self.mask_dist`), so a forward call on a network
built with `returns_condition=True` and a non-None `returns` raises AttributeError
at `self.returns_mlp(returns)` instead of concatenating a return-embedding. -/
theorem C5_returns_branch_bug :
    returnsBranchShape cfgWR (some ⟨1, 1⟩) = .error (.attrMissing "returns_mlp") ∧
    forwardShape cfgWR ⟨1, 4, 7⟩ (.num 0) none none (some ⟨1, 1⟩) =
      .error (.attrMissing "returns_mlp") ∧
    "returns_mlp" ∉ initAttrs ∧ "mask_dist" ∉ initAttrs := by
  decide

/-- C6 (amended): the shape round-trip holds exactly for horizons divisible by
2^(len(down_dims) - 1) — one factor 2 per strided down-sampling stage: for any such
input (with matching channel count and well-formed conditioning), `forward` returns a
tensor of exactly the input's shape. For non-divisible horizons the round trip fails
(see the counterexample: the output horizon differs or the call raises). -/
theorem C6_shape_roundtrip_amended (c : UnetCfg) (B H A : Nat) (ts : TimestepIn)
    (tsv : List ℚ) (lc : Option Shape3) (gc : Option Shape2) (ret : Option Shape2)
    (hA : A = c.input_dim)
    (hdims : c.down_dims ≠ [])
    (hk : c.kernel % 2 = 1) (hg : c.n_groups ≠ 0)
    (hdvd : ∀ d ∈ c.down_dims, d % c.n_groups = 0)
    (hts : normalizeTimesteps B ts = .ok tsv)
    (hret : c.returns_condition = false)
    (hglob : (gc = none ∧ c.global_cond_dim = none) ∨
      (∃ gd, c.global_cond_dim = some gd ∧ gc = some ⟨B, gd⟩))
    (hloc : lc = none ∨ (∃ lcd, c.local_cond_dim = some lcd ∧ lc = some ⟨B, H, lcd⟩))
    (hdiv : 2 ^ (c.down_dims.length - 1) ∣ H) (hH : 1 ≤ H) :
    forwardShape c ⟨B, H, A⟩ ts lc gc ret = .ok ⟨B, H, A⟩ := by
  subst hA
  exact forwardShape_ok c B H ts tsv lc gc ret hdims hk hg hdvd hts hret hglob hloc hdiv hH

/-- C6 counterexample: with `down_dims = [32, 64]` and odd horizon 3, `forward`
succeeds but returns horizon 4 — the output shape does not equal the input shape. -/
theorem C6_shape_roundtrip_cex :
    forwardShape cfgW2 ⟨1, 3, 7⟩ (.num 0) none none none = .ok ⟨1, 4, 7⟩ ∧
    (⟨1, 4, 7⟩ : Shape3) ≠ ⟨1, 3, 7⟩ := by
  decide

/-- C6 witness: the amended round trip at a conditioned FiLM configuration with a
divisible horizon. -/
theorem C6_shape_roundtrip_witness :
    forwardShape cfgWC ⟨2, 4, 7⟩ (.num 3) (some ⟨2, 4, 5⟩) (some ⟨2, 11⟩) none =
      .ok ⟨2, 4, 7⟩ :=
  C6_shape_roundtrip_amended cfgWC 2 4 7 (.num 3) [3, 3] (some ⟨2, 4, 5⟩) (some ⟨2, 11⟩)
    none (by decide) (by decide) (by decide) (by decide) (by decide) (by decide)
    (by decide) (Or.inr ⟨11, by decide, rfl⟩) (Or.inr ⟨5, by decide, rfl⟩) (by decide)
    (by decide)

/-- C7 (amended): with no conditioning declared at construction and none supplied,
the absent paths are completely inert: for accepted horizons (divisible by
2^(len(down_dims) - 1)) `forward` succeeds with no error; the conditioning vector is
exactly the timestep embedding (nothing concatenated); and neither the encoder nor
the decoder loop performs any local injection (their results do not depend on the
injection operation at all when `h_local` is empty). The unqualified "never raises"
of the original claim fails for horizons the skip concatenation rejects. -/
theorem C7_conditioning_inert_amended (c : UnetCfg) (B H : Nat) (ts : TimestepIn)
    (tsv : List ℚ)
    (hdims : c.down_dims ≠ []) (hk : c.kernel % 2 = 1) (hg : c.n_groups ≠ 0)
    (hdvd : ∀ d ∈ c.down_dims, d % c.n_groups = 0)
    (hts : normalizeTimesteps B ts = .ok tsv)
    (hlcfg : c.local_cond_dim = none) (hgcfg : c.global_cond_dim = none)
    (hret : c.returns_condition = false)
    (hdiv : 2 ^ (c.down_dims.length - 1) ∣ H) (hH : 1 ≤ H) :
    forwardShape c ⟨B, H, c.input_dim⟩ ts none none none = .ok ⟨B, H, c.input_dim⟩ ∧
    (∀ (V : Type) (catf : V → V → V) (emb : V), globalFeatureVal catf emb none = emb) ∧
    (∀ (V : Type) (add add2 : V → V → V)
      (mods : List ((V → V) × (V → V) × (V → V))) (idx : Nat) (x : V) (h : List V),
      encodeValAux add [] idx mods x h = encodeValAux add2 [] idx mods x h) ∧
    (∀ (V : Type) (cat add add2 : V → V → V) (total : Nat)
      (mods : List ((V → V) × (V → V) × (V → V))) (idx : Nat) (x : V) (h : List V),
      decodeValAux cat add total [] idx mods x h =
        decodeValAux cat add2 total [] idx mods x h) := by
  refine ⟨?_, fun V catf emb => rfl,
    fun V a1 a2 mods idx x h => encodeValAux_add_irrel a1 a2 mods idx x h,
    fun V cat a1 a2 total mods idx x h => decodeValAux_add_irrel cat a1 a2 total mods idx x h⟩
  exact forwardShape_ok c B H ts tsv none none none hdims hk hg hdvd hts hret
    (Or.inl ⟨rfl, hgcfg⟩) (Or.inl rfl) hdiv hH

/-- C7 counterexample: the original claim's unqualified "never raises" is false —
with `down_dims = [32, 64, 128]` and horizon 2 (not divisible by 4), the forward pass
raises a shape-mismatch error at a decoder skip concatenation even though all
conditioning is absent. -/
theorem C7_conditioning_inert_cex :
    forwardShape cfgW3 ⟨1, 2, 7⟩ (.num 0) none none none = .error .shapeMismatch := by
  decide

/-- C7 witness: the amended theorem at the unconditioned three-stage configuration. -/
theorem C7_conditioning_inert_witness :
    forwardShape cfgW3 ⟨2, 8, 7⟩ (.num 0) none none none = .ok ⟨2, 8, 7⟩ :=
  (C7_conditioning_inert_amended cfgW3 2 8 (.num 0) [0, 0] (by decide) (by decide)
    (by decide) (by decide) (by decide) (by decide) (by decide) (by decide) (by decide)
    (by decide)).1

/-- C8: `ConditionalResidualBlock1D.forward` returns the second sub-block's output
plus the residual path applied to the block's input, where the residual path is the
exact identity when `in_channels == out_channels` (no 1×1 projection) and the 1×1
convolution when the widths differ. -/
theorem C8_residual_path (m : CRBVal) (x : Tens3) (cond : Tens2) :
    crbForwardVal m x cond = t3Add (crbMainPath m x cond) (residualConv m x) ∧
    (m.cin = m.cout → residualConv m x = x) ∧
    (m.cin ≠ m.cout → residualConv m x = conv1x1Val m.resW m.resB x) := by
  refine ⟨rfl, ?_, ?_⟩
  · intro h
    simp [residualConv, h]
  · intro h
    simp [residualConv, h]

/-- C8 witness: for a block with equal channel widths the residual path is the exact
identity on a concrete input. -/
theorem C8_residual_path_witness :
    residualConv ⟨1, 1, id, id, id, [[1]], [0], [[1]], [0], false⟩ [[[2]]] = [[[2]]] :=
  (C8_residual_path ⟨1, 1, id, id, id, [[1]], [0], [[1]], [0], false⟩ [[[2]]] []).2.1 rfl

/-- C9 (amended): with `cond_predict_scale=False` the conditioning projection outputs
exactly `out_channels` features (no doubling); with it `True` it outputs exactly
`2*out_channels` features split exactly in half into a scale half and a bias half
applied as `scale*out + bias`. However, under zero-initialized projection weights the
scale is exactly 0 and the bias exactly 0 (the code adds no offset of 1), so the
FiLM-modulated activation is zeroed — not left near-unchanged as the original claim's
"scale near 1" asserts. -/
theorem C9_film_amended (cout cd : Nat) (act : ℚ → ℚ) (cond : Tens1) (chs : List Tens1)
    (hlen : chs.length = cout) :
    (∀ cin k g, condChannels ⟨cin, cout, cd, k, g, false⟩ = cout) ∧
    (∀ cin k g, condChannels ⟨cin, cout, cd, k, g, true⟩ = 2 * cout) ∧
    (∀ (m : CRBVal) (out : Tens3) (embed : Tens2), m.predictScale = true →
      filmStage m out embed =
        List.zipWith (fun e chs2 => applyScaleBias (e.take m.cout) (e.drop m.cout) chs2)
          embed out) ∧
    condEncoderVal act (zeroMatQ (2 * cout) cd) (List.replicate (2 * cout) 0) cond =
      List.replicate (2 * cout) 0 ∧
    (List.replicate (2 * cout) (0 : ℚ)).take cout = List.replicate cout 0 ∧
    (List.replicate (2 * cout) (0 : ℚ)).drop cout = List.replicate cout 0 ∧
    applyScaleBias (List.replicate cout 0) (List.replicate cout 0) chs =
      chs.map (fun ch => ch.map (fun _ => 0)) := by
  refine ⟨fun cin k g => rfl, fun cin k g => by simp [condChannels], ?_,
    condEncoderVal_zero act (2 * cout) cd cond, ?_, ?_, applyScaleBias_zero cout chs hlen⟩
  · intro m out embed h
    simp [filmStage, h]
  · rw [List.take_replicate]
    congr 1
    omega
  · rw [List.drop_replicate]
    congr 1
    omega

/-- C9 counterexample: with zero-initialized projection weights the scale half of the
conditioning projection is exactly 0, not "near 1". -/
theorem C9_film_cex :
    (condEncoderVal (fun q => q) (zeroMatQ 2 1) (List.replicate 2 0) [1]).take 1 =
      [(0 : ℚ)] ∧ (0 : ℚ) ≠ 1 := by
  refine ⟨?_, by norm_num⟩
  rw [condEncoderVal_zero (fun q => q) 2 1 [1]]
  decide

/-- C9 witness: the amended theorem's zero-initialization conjunct at a concrete
block width. -/
theorem C9_film_witness :
    condEncoderVal (fun q => q) (zeroMatQ (2 * 1) 1) (List.replicate (2 * 1) 0) [1] =
      List.replicate (2 * 1) 0 :=
  (C9_film_amended 1 1 (fun q => q) [1] [[5]] rfl).2.2.2.1

/-- C10: `Downsample1d` maps a length-L sequence (L ≥ 1) to length ⌈L/2⌉ and
`Upsample1d` maps it to exactly 2L; consequently the forward pass of
`ConditionalUnet1D` returns an output whose horizon equals the input horizon only
when the horizon is divisible by 2^(number of strided down-sampling operators) =
2^(len(down_dims) - 1): whenever forward succeeds with output shape equal to the
input's, that divisibility holds (for non-divisible horizons the call either raises
or returns a different horizon). -/
theorem C10_length_precondition (c : UnetCfg) (B H A : Nat) (ts : TimestepIn)
    (tsv : List ℚ) (lc : Option Shape3) (gc : Option Shape2) (ret : Option Shape2)
    (hdims : c.down_dims ≠ [])
    (hk : c.kernel % 2 = 1) (hg : c.n_groups ≠ 0)
    (hdvd : ∀ d ∈ c.down_dims, d % c.n_groups = 0)
    (hts : normalizeTimesteps B ts = .ok tsv)
    (hret : c.returns_condition = false)
    (hglob : (gc = none ∧ c.global_cond_dim = none) ∨
      (∃ gd, c.global_cond_dim = some gd ∧ gc = some ⟨B, gd⟩))
    (hloc : lc = none ∨ (∃ lcd, c.local_cond_dim = some lcd ∧ lc = some ⟨B, H, lcd⟩))
    (hH : 1 ≤ H)
    (hfw : forwardShape c ⟨B, H, c.input_dim⟩ ts lc gc ret = .ok ⟨B, H, A⟩) :
    2 ^ (c.down_dims.length - 1) ∣ H ∧
    (∀ dim B2 L, 1 ≤ L → downsample1dShape dim ⟨B2, dim, L⟩ = .ok ⟨B2, dim, (L + 1) / 2⟩) ∧
    (∀ dim B2 L, 1 ≤ L → upsample1dShape dim ⟨B2, dim, L⟩ = .ok ⟨B2, dim, 2 * L⟩) := by
  refine ⟨?_, fun dim B2 L hL => downsample1dShape_ok dim B2 L hL,
    fun dim B2 L hL => upsample1dShape_ok dim B2 L hL⟩
  have hy := forwardShape_succ c B H ts tsv lc gc ret ⟨B, H, A⟩ hdims hk hg hdvd hts hret
    hglob hloc hH hfw
  have hH2 : H = 2 ^ (c.down_dims.length - 1) * ceilHalfIter (c.down_dims.length - 1) H := by
    have hc := congrArg Shape3.c hy
    simpa using hc
  exact ⟨_, hH2⟩

/-- C10 witness: the divisibility conclusion at a concrete successful round trip. -/
theorem C10_length_precondition_witness :
    2 ^ (cfgW2.down_dims.length - 1) ∣ 4 :=
  (C10_length_precondition cfgW2 1 4 7 (.num 0) [0] none none none (by decide) (by decide)
    (by decide) (by decide) (by decide) (by decide) (Or.inl ⟨rfl, by decide⟩) (Or.inl rfl)
    (by decide) (by decide)).1
